import Mathlib

/-!
Verification of the manifest/caching/orchestration core of `rust-script`
(`src/main.rs`, `src/manifest.rs`, `src/util/mod.rs`).

The development is a shallow embedding: each Rust function under scrutiny is
translated into an executable Lean definition of the same name (camelCased),
and the specification claims are settled as theorems about those definitions.

Conventions of the embedding:
- Rust `&str`/`String` values are modelled as `String` at the interface and as
  `List Char` in the recursive workers.  The source indexes byte offsets; the
  model indexes characters.  The two coincide on ASCII data, which is the only
  data exercised by the theorems and by the repository's own tests.
- The external `sha1` crate is modelled by `sha1Hex`, a deterministic stand-in
  digest: a function of exactly the byte stream fed to the hasher (which is
  all the development's theorems use about SHA-1).
- The external `regex` crate's patterns (`RE_SHEBANG`, `RE_CRATE_COMMENT`,
  `RE_MARGIN`, `RE_SPACE`, `RE_NESTING`, `RE_COMMENT`) are hand-translated to
  recursive character-list functions, following leftmost-first semantics.
- The external `pulldown_cmark` crate is modelled by a line-based CommonMark
  fenced-code-block scanner (`scrapeMarkdownManifest`), covering the fenced
  block constructs the manifest scraper consumes.
- The file system is modelled by explicit state records and, where a claim is
  about the write *mechanism*, by traces of primitive file operations.
-/

/-! ## Character utilities -/

/-- ASCII decimal digit, the `'0'..='9'` pattern of `Input::package_name`. -/
def isAsciiDigit (c : Char) : Bool :=
  '0'.toNat ≤ c.toNat && c.toNat ≤ '9'.toNat

/-- ASCII lowercase letter, the `'a'..='z'` pattern. -/
def isAsciiLower (c : Char) : Bool :=
  'a'.toNat ≤ c.toNat && c.toNat ≤ 'z'.toNat

/-- ASCII uppercase letter, the `'A'..='Z'` pattern. -/
def isAsciiUpper (c : Char) : Bool :=
  'A'.toNat ≤ c.toNat && c.toNat ≤ 'Z'.toNat

/-- `char::to_ascii_lowercase`: shift an ASCII uppercase letter down by 32. -/
def toAsciiLower (c : Char) : Char :=
  if isAsciiUpper c then Char.ofNat (c.toNat + 32) else c

/-! ## `Input::package_name` (src/main.rs:946-970) -/

/-- One iteration of the `for (i, c) in name.chars().enumerate()` loop of
`Input::package_name`: the characters pushed onto `r` for index `i`, char `c`. -/
def pushSanitized (i : Nat) (c : Char) : List Char :=
  if i = 0 && isAsciiDigit c then ['_', c]
  else if isAsciiDigit c || isAsciiLower c || c = '_' || c = '-' then [c]
  else if isAsciiUpper c then [toAsciiLower c]
  else ['_']

/-- The loop of `Input::package_name`, carrying the enumeration index. -/
def packageNameGo : Nat → List Char → List Char
  | _, [] => []
  | i, c :: rest => pushSanitized i c ++ packageNameGo (i + 1) rest

/-- `Input::package_name`: sanitize the safe name into a package identifier. -/
def packageName (name : String) : String :=
  (packageNameGo 0 name.toList).asString

/-- Per-character sanitization as the spec words it: pass `[a-z0-9_-]`,
lowercase `[A-Z]`, replace everything else with `_`.  (The leading-digit
underscore is handled separately.) -/
def sanitizeChar (c : Char) : Char :=
  if isAsciiDigit c || isAsciiLower c || c = '_' || c = '-' then c
  else if isAsciiUpper c then toAsciiLower c
  else '_'

theorem pushSanitized_pos (i : Nat) (c : Char) (h : i ≠ 0) :
    pushSanitized i c = [sanitizeChar c] := by
  unfold pushSanitized sanitizeChar
  split_ifs <;> first | rfl | simp_all

theorem pushSanitized_zero_digit (c : Char) (h : isAsciiDigit c = true) :
    pushSanitized 0 c = ['_', c] := by
  unfold pushSanitized
  simp [h]

theorem pushSanitized_zero_nondigit (c : Char) (h : isAsciiDigit c = false) :
    pushSanitized 0 c = [sanitizeChar c] := by
  unfold pushSanitized sanitizeChar
  split_ifs <;> first | rfl | simp_all

theorem packageNameGo_pos (i : Nat) (h : i ≠ 0) (cs : List Char) :
    packageNameGo i cs = cs.map sanitizeChar := by
  induction cs generalizing i with
  | nil => rfl
  | cons c rest ih =>
      rw [packageNameGo, pushSanitized_pos i c h, ih (i + 1) (by omega)]
      rfl

/-- Closed form for the whole loop: an underscore is prefixed exactly when the
first character is a digit, and every character is sanitized pointwise. -/
theorem packageNameGo_closed (cs : List Char) :
    packageNameGo 0 cs =
      (match cs.head? with
        | some c => if isAsciiDigit c then '_' :: cs.map sanitizeChar
                    else cs.map sanitizeChar
        | none => []) := by
  cases cs with
  | nil => rfl
  | cons c rest =>
      rw [packageNameGo, packageNameGo_pos 1 (by omega) rest]
      cases h : isAsciiDigit c with
      | false =>
          rw [pushSanitized_zero_nondigit c h]
          simp [h]
      | true =>
          rw [pushSanitized_zero_digit c h]
          have : sanitizeChar c = c := by unfold sanitizeChar; simp [h]
          simp [h, this]

theorem toNat_ofNat_ascii (n : Nat) (h1 : 97 ≤ n) (h2 : n ≤ 122) :
    (Char.ofNat n).toNat = n := by
  unfold Char.ofNat Char.ofNatAux
  split
  · show (⟨BitVec.ofNatLt n _⟩ : UInt32).toNat = n
    rfl
  · rename_i h
    exfalso
    apply h
    constructor
    omega

theorem isAsciiUpper_bounds (c : Char) (h : isAsciiUpper c = true) :
    65 ≤ c.toNat ∧ c.toNat ≤ 90 := by
  simpa [isAsciiUpper, Bool.and_eq_true, decide_eq_true_eq] using h

theorem isAsciiLower_toAsciiLower (c : Char) (h : isAsciiUpper c = true) :
    isAsciiLower (toAsciiLower c) = true := by
  have hb := isAsciiUpper_bounds c h
  unfold toAsciiLower
  rw [if_pos h]
  have ht := toNat_ofNat_ascii (c.toNat + 32) (by omega) (by omega)
  simp [isAsciiLower, ht]
  omega

theorem isAsciiDigit_toAsciiLower (c : Char) (h : isAsciiUpper c = true) :
    isAsciiDigit (toAsciiLower c) = false := by
  have hb := isAsciiUpper_bounds c h
  unfold toAsciiLower
  rw [if_pos h]
  have ht := toNat_ofNat_ascii (c.toNat + 32) (by omega) (by omega)
  simp [isAsciiDigit, ht]
  omega

/-- The class of characters `Input::package_name` passes through: ASCII
digits, lowercase letters, underscore and hyphen. -/
def isIdentChar (c : Char) : Bool :=
  isAsciiDigit c || isAsciiLower c || c = '_' || c = '-'

theorem sanitizeChar_ident (c : Char) : isIdentChar (sanitizeChar c) = true := by
  unfold sanitizeChar
  split_ifs with h1 h2
  · exact h1
  · unfold isIdentChar
    rw [isAsciiLower_toAsciiLower c h2]
    simp
  · rfl

theorem sanitizeChar_fix (c : Char) (h : isIdentChar c = true) :
    sanitizeChar c = c := by
  unfold isIdentChar at h
  unfold sanitizeChar
  rw [if_pos h]

theorem isIdentChar_false_of_upper (c : Char) (h : isAsciiUpper c = true) :
    isIdentChar c = false := by
  have hb := isAsciiUpper_bounds c h
  have hd : isAsciiDigit c = false := by
    simp [isAsciiDigit]
    omega
  have hl : isAsciiLower c = false := by
    simp [isAsciiLower]
    omega
  have hu : c ≠ '_' := fun e => absurd (e ▸ hb) (by decide)
  have hh : c ≠ '-' := fun e => absurd (e ▸ hb) (by decide)
  unfold isIdentChar
  simp [hd, hl, hu, hh]

theorem sanitizeChar_not_digit (c : Char) (h : isAsciiDigit c = false) :
    isAsciiDigit (sanitizeChar c) = false := by
  unfold sanitizeChar
  split_ifs with h1 h2
  · exact h
  · exact isAsciiDigit_toAsciiLower c h2
  · rfl

theorem map_sanitizeChar_fix (cs : List Char)
    (h : ∀ c ∈ cs, isIdentChar c = true) : cs.map sanitizeChar = cs := by
  induction cs with
  | nil => rfl
  | cons c rest ih =>
      rw [List.map_cons, sanitizeChar_fix c (h c (by simp)),
        ih (fun c hc => h c (by simp [hc]))]

/-- C6 (confirmed).  `package_name` prefixes an underscore exactly when the
first character is an ASCII digit, and otherwise maps each character
pointwise: `[a-z0-9_-]` pass through, `[A-Z]` are lowercased, everything else
becomes `_`; in particular `package_name "Script" = "script"` and
`package_name "1Script" = "_1script"`. -/
theorem claim_C6_package_name_sanitization :
    (∀ (name : String) (c : Char), name.toList.head? = some c →
        isAsciiDigit c = true →
        packageName name = ('_' :: name.toList.map sanitizeChar).asString) ∧
    (∀ (name : String) (c : Char), name.toList.head? = some c →
        isAsciiDigit c = false →
        packageName name = (name.toList.map sanitizeChar).asString) ∧
    (∀ c : Char, isIdentChar c = true → sanitizeChar c = c) ∧
    (∀ c : Char, isAsciiUpper c = true → sanitizeChar c = toAsciiLower c) ∧
    (∀ c : Char, isIdentChar c = false → isAsciiUpper c = false →
        sanitizeChar c = '_') ∧
    packageName "Script" = "script" ∧ packageName "1Script" = "_1script" := by
  refine ⟨?_, ?_, sanitizeChar_fix, ?_, ?_, by decide, by decide⟩
  · intro name c hc hd
    unfold packageName
    rw [packageNameGo_closed, hc]
    simp [hd]
  · intro name c hc hd
    unfold packageName
    rw [packageNameGo_closed, hc]
    simp [hd]
  · intro c h
    have hf := isIdentChar_false_of_upper c h
    unfold isIdentChar at hf
    unfold sanitizeChar
    rw [if_neg (by simp [hf]), if_pos h]
  · intro c h1 h2
    unfold isIdentChar at h1
    unfold sanitizeChar
    rw [if_neg (by simp [h1]), if_neg (by simp [h2])]

/-- C6 witness: the theorem applied at the concrete input `"1Script"`. -/
theorem claim_C6_package_name_sanitization_witness :
    packageName "1Script" = ('_' :: "1Script".toList.map sanitizeChar).asString :=
  claim_C6_package_name_sanitization.1 "1Script" '1' (by decide) (by decide)

/-- C10 (confirmed).  Every character of `package_name`'s output is an ASCII
lowercase letter, digit, underscore or hyphen, the output never begins with a
digit, and `package_name` is idempotent. -/
theorem claim_C10_package_name_idempotent (name : String) :
    (∀ c ∈ (packageName name).toList, isIdentChar c = true) ∧
    (∀ c : Char, (packageName name).toList.head? = some c →
        isAsciiDigit c = false) ∧
    packageName (packageName name) = packageName name := by
  unfold packageName
  rw [packageNameGo_closed]
  have hmem : ∀ cs : List Char, ∀ c ∈ cs.map sanitizeChar, isIdentChar c = true := by
    intro cs c hc
    rcases List.mem_map.mp hc with ⟨a, _, ha⟩
    exact ha ▸ sanitizeChar_ident a
  cases hh : name.toList.head? with
  | none =>
      refine ⟨fun c hc => absurd hc (List.not_mem_nil c),
        fun c hc => Option.noConfusion hc, ?_⟩
      rfl
  | some c0 =>
      cases hd : isAsciiDigit c0 with
      | true =>
          simp only [hd, if_true]
          constructor
          · intro c hc
            simp only [List.asString, String.toList] at hc
            rcases List.mem_cons.mp hc with h | h
            · subst h; decide
            · exact hmem _ c h
          constructor
          · intro c hc
            simp only [List.asString, String.toList] at hc
            injection hc with hc
            subst hc
            decide
          · rw [show (('_' :: name.toList.map sanitizeChar).asString).toList
                  = '_' :: name.toList.map sanitizeChar from rfl]
            rw [packageNameGo_closed]
            simp only [List.head?_cons]
            rw [show isAsciiDigit '_' = false from rfl]
            simp only [Bool.false_eq_true, if_false, List.map_cons]
            rw [sanitizeChar_fix '_' (by decide),
              map_sanitizeChar_fix _ (hmem name.toList)]
      | false =>
          simp only [hd, Bool.false_eq_true, if_false]
          refine ⟨hmem name.toList, ?_, ?_⟩
          · intro c hc
            cases hcs : name.toList with
            | nil =>
                rw [hcs] at hc
                exact Option.noConfusion hc
            | cons a rest =>
                rw [hcs] at hc
                simp only [List.map_cons] at hc
                injection hc with hc
                rw [hcs] at hh
                injection hh with hh
                subst hh
                subst hc
                exact sanitizeChar_not_digit a hd
          · rw [show ((name.toList.map sanitizeChar).asString).toList
                  = name.toList.map sanitizeChar from rfl]
            rw [packageNameGo_closed, map_sanitizeChar_fix _ (hmem name.toList)]
            cases hcs : name.toList with
            | nil => rfl
            | cons a rest =>
                simp only [List.map_cons, List.head?_cons]
                rw [hcs] at hh
                injection hh with hh
                subst hh
                rw [sanitizeChar_not_digit a hd]
                simp

/-- C10 witness: the theorem instantiated at `"1Script"`, discharging the
membership and head hypotheses concretely. -/
theorem claim_C10_package_name_idempotent_witness :
    isIdentChar 's' = true ∧ isAsciiDigit '_' = false ∧
      packageName (packageName "1Script") = packageName "1Script" := by
  have h := claim_C10_package_name_idempotent "1Script"
  exact ⟨h.1 's' (by decide), h.2.1 '_' (by decide), h.2.2⟩

/-! ## Content hashing and `Input::compute_id` (src/main.rs:990-1052) -/

/-- Stand-in for the `sha1` crate's running digest.  Real SHA-1 is a function
of exactly the concatenated byte stream fed to `update`; the stand-in keeps
that interface (a deterministic function of the update stream) while using a
simple executable mixing function.  No theorem below relies on anything else
about SHA-1. -/
def rollHash (cs : List Char) : Nat :=
  cs.foldl (fun h c => (h * 331 + c.toNat + 1) % (2 ^ 160)) 7

/-- One lowercase hexadecimal digit. -/
def hexDigitChar (n : Nat) : Char :=
  if n < 10 then Char.ofNat ('0'.toNat + n) else Char.ofNat ('a'.toNat + (n - 10))

/-- Fixed-width 40-nibble lowercase hex rendering, the shape of
`format!("{:x}", hasher.finalize())` for SHA-1. -/
def natToHex40 (n : Nat) : List Char :=
  (List.range 40).map (fun i => hexDigitChar (n / 16 ^ (39 - i) % 16))

/-- The hex digest of a sequence of `hasher.update` calls. -/
def sha1Hex (updates : List String) : String :=
  (natToHex40 (rollHash (String.join updates).toList)).asString

/-- Modelled from the spec: `consts.rs` is not included under `src/`; the
spec fixes the digest truncation (`consts::ID_DIGEST_LEN_MAX`) at 24 of the
40 hex nibbles. -/
def idDigestLenMax : Nat := 24

/-- `String::truncate` to `idDigestLenMax` characters. -/
def truncId (s : String) : String :=
  (s.toList.take idDigestLenMax).asString

/-- The `Input` enum (src/main.rs:890-912): script file (name, absolute
path, content, mtime), expression (content, template), or loop body
(content, count flag). -/
inductive Input where
  | file (name : String) (path : String) (content : String) (mtime : Nat)
  | expr (content : String) (template : Option String)
  | loopInput (content : String) (count : Bool)

/-- The `hash_deps` closure of `compute_id`: the update stream
`dep=<name>=<version>;` per dependency. -/
def depUpdates (deps : List (String × String)) : List String :=
  (deps.map (fun d => ["dep=", d.1, "=", d.2, ";"])).join

/-- `Input::compute_id`: for files, hash the absolute path; for expressions,
hash deps, template and content; for loops, hash deps, count flag and
content.  The digest is truncated to `idDigestLenMax`. -/
def computeId (input : Input) (deps : List (String × String)) : String :=
  match input with
  | .file _ path _ _ => truncId (sha1Hex [path])
  | .expr content template =>
      truncId (sha1Hex (depUpdates deps ++ ["template:", template.getD "", ";", content]))
  | .loopInput content count =>
      truncId (sha1Hex (depUpdates deps ++ ["count:", if count then "true;" else "false;", content]))

/-- The identity-relevant byte stream of an input, read off the branches of
`compute_id`: the absolute path for files; the dependency list, template and
literal content for expressions; the dependency list, count flag and literal
content for loops. -/
def idUpdates (input : Input) (deps : List (String × String)) : List String :=
  match input with
  | .file _ path _ _ => [path]
  | .expr content template =>
      depUpdates deps ++ ["template:", template.getD "", ";", content]
  | .loopInput content count =>
      depUpdates deps ++ ["count:", if count then "true;" else "false;", content]

/-- C5 (confirmed).  `compute_id` is a pure function of the identity-relevant
bytes alone (no randomness, PID or timestamp enters): it equals the truncated
digest of `idUpdates`, any two inputs with equal identity-relevant bytes get
the same token, and in particular a file input's token depends only on its
absolute path — never on its display name, content, mtime or the dependency
iterator. -/
theorem claim_C5_compute_id_deterministic :
    (∀ (i : Input) (d : List (String × String)),
        computeId i d = truncId (sha1Hex (idUpdates i d))) ∧
    (∀ (i₁ : Input) (d₁ : List (String × String)) (i₂ : Input)
        (d₂ : List (String × String)), idUpdates i₁ d₁ = idUpdates i₂ d₂ →
        computeId i₁ d₁ = computeId i₂ d₂) ∧
    (∀ (n₁ n₂ p c₁ c₂ : String) (m₁ m₂ : Nat)
        (d₁ d₂ : List (String × String)),
        computeId (.file n₁ p c₁ m₁) d₁ = computeId (.file n₂ p c₂ m₂) d₂) := by
  have h1 : ∀ (i : Input) (d : List (String × String)),
      computeId i d = truncId (sha1Hex (idUpdates i d)) := by
    intro i d
    cases i <;> rfl
  refine ⟨h1, ?_, ?_⟩
  · intro i₁ d₁ i₂ d₂ h
    rw [h1, h1, h]
  · intro n₁ n₂ p c₁ c₂ m₁ m₂ d₁ d₂
    rfl

/-- C5 witness: two file inputs sharing a path but differing in name,
content, mtime and dependency list receive the same identity token. -/
theorem claim_C5_compute_id_deterministic_witness :
    computeId (.file "a" "/tmp/s.rs" "fn f()" 1) [] =
      computeId (.file "b" "/tmp/s.rs" "fn g()" 9) [("time", "0.1.25")] :=
  claim_C5_compute_id_deterministic.2.1 _ _ _ _ rfl

/-! ## `clean_cache` (src/main.rs:435-501) -/

/-- A directory entry directly under the generated-projects cache root, as
`clean_cache` sees it: its name, whether it is a plain file (skipped), and
the modification time of its metadata file (`none` when the metadata cannot
be opened). -/
structure CacheEntry where
  name : String
  isFile : Bool
  metaMtime : Option Nat
deriving DecidableEq

/-- The `remove_dir` closure of `clean_cache` (src/main.rs:461-486):
unreadable metadata means "remove"; otherwise remove when the metadata
mtime is at or before the cutoff. -/
def removeDir (cutoff : Nat) (e : CacheEntry) : Bool :=
  match e.metaMtime with
  | none => true
  | some m => m ≤ cutoff

/-- The GC pass of `clean_cache` over the cache root: plain files are
skipped (`continue`), directories are removed per `removeDir` with cutoff
`now - max_age`.  The function returns the surviving entries; in the source,
failures to delete an entry are logged and skipped, never fatal, so the pass
always completes. -/
def cleanCache (maxAge now : Nat) (entries : List CacheEntry) : List CacheEntry :=
  entries.filter (fun e => e.isFile || !removeDir (now - maxAge) e)

/-- C8 (confirmed).  For a directory entry under the cache root: if its
metadata mtime is older than `now - max_age` it is deleted by the GC pass;
if newer than that cutoff it survives; if the timestamp cannot be read the
entry is deleted (fail-safe) rather than aborting the pass. -/
theorem claim_C8_gc_cutoff (maxAge now : Nat) (hage : maxAge ≤ now)
    (entries : List CacheEntry) (e : CacheEntry)
    (hdir : e.isFile = false) (hmem : e ∈ entries) :
    (∀ m, e.metaMtime = some m → m < now - maxAge →
        e ∉ cleanCache maxAge now entries) ∧
    (∀ m, e.metaMtime = some m → now - maxAge < m →
        e ∈ cleanCache maxAge now entries) ∧
    (e.metaMtime = none → e ∉ cleanCache maxAge now entries) := by
  refine ⟨?_, ?_, ?_⟩
  · intro m hm hlt
    unfold cleanCache
    intro hin
    have := (List.mem_filter.mp hin).2
    rw [hdir, removeDir, hm] at this
    simp at this
    omega
  · intro m hm hlt
    unfold cleanCache
    refine List.mem_filter.mpr ⟨hmem, ?_⟩
    rw [hdir, removeDir, hm]
    simp
    omega
  · intro hm
    unfold cleanCache
    intro hin
    have := (List.mem_filter.mp hin).2
    rw [hdir, removeDir, hm] at this
    simp at this

/-- C8 witness: with `now = 100`, `max_age = 30`, an entry stamped 50 is
deleted, one stamped 90 survives, and an unreadable one is deleted. -/
theorem claim_C8_gc_cutoff_witness :
    (⟨"old", false, some 50⟩ : CacheEntry) ∉
        cleanCache 30 100 [⟨"old", false, some 50⟩, ⟨"new", false, some 90⟩] ∧
    (⟨"new", false, some 90⟩ : CacheEntry) ∈
        cleanCache 30 100 [⟨"old", false, some 50⟩, ⟨"new", false, some 90⟩] ∧
    (⟨"bad", false, none⟩ : CacheEntry) ∉
        cleanCache 30 100 [⟨"bad", false, none⟩] := by
  refine ⟨?_, ?_, ?_⟩
  · exact (claim_C8_gc_cutoff 30 100 (by decide) _ _ rfl (by decide)).1 50 rfl (by decide)
  · exact (claim_C8_gc_cutoff 30 100 (by decide) _ _ rfl (by decide)).2.1 90 rfl (by decide)
  · exact (claim_C8_gc_cutoff 30 100 (by decide) _ _ rfl (by decide)).2.2 rfl

/-! ## `merge_manifest` (src/manifest.rs:898-936)

`toml::value::Table` is a `BTreeMap<String, Value>`; the model is an
association list with first-match lookup and replace-in-place insertion,
which agrees with the map semantics on duplicate-free tables. -/

/-- The `toml::Value` tree, restricted to the constructors the manifests
exercise: strings, integers, booleans, arrays and tables. -/
inductive TomlValue where
  | str (s : String)
  | int (n : Int)
  | boolVal (b : Bool)
  | array (xs : List TomlValue)
  | table (t : List (String × TomlValue))

/-- A TOML table: key/value association list. -/
abbrev TomlTable := List (String × TomlValue)

/-- The `as_table_mut` test of `merge_manifest`: is the value a table? -/
def isTable : TomlValue → Bool
  | .table _ => true
  | _ => false

/-- `BTreeMap::get` on the model. -/
def tableGet : TomlTable → String → Option TomlValue
  | [], _ => none
  | (k', v) :: rest, k => if k' = k then some v else tableGet rest k

/-- `BTreeMap::insert` on the model: replace the binding in place, else
append. -/
def tableInsert : TomlTable → String → TomlValue → TomlTable
  | [], k, v => [(k, v)]
  | (k', v') :: rest, k, v =>
      if k' = k then (k, v) :: rest else (k', v') :: tableInsert rest k v

/-- `BTreeMap::extend`: insert every binding of `frm` into `t`, the incoming
bindings winning on collision. -/
def tableExtend (t : TomlTable) (frm : TomlTable) : TomlTable :=
  frm.foldl (fun acc kv => tableInsert acc kv.1 kv.2) t

/-- The error text of `merge_manifest`'s conflict case. -/
def mergeConflictMsg : String :=
  "cannot merge manifests: cannot merge table and non-table values"

/-- `merge_manifest`: fold the fragment into the default table.  A fragment
table is merged one level deep into a default table at the same key (error
when the default holds a non-table there); any other fragment value is
inserted outright. -/
def mergeManifest : TomlTable → TomlTable → Except String TomlTable
  | intoT, [] => .ok intoT
  | intoT, (k, v) :: rest =>
      match v with
      | .table fromT =>
          match tableGet intoT k with
          | none => mergeManifest (tableInsert intoT k (.table fromT)) rest
          | some (.table t) =>
              mergeManifest (tableInsert intoT k (.table (tableExtend t fromT))) rest
          | some _ => .error mergeConflictMsg
      | v => mergeManifest (tableInsert intoT k v) rest

theorem tableGet_insert_self (t : TomlTable) (k : String) (v : TomlValue) :
    tableGet (tableInsert t k v) k = some v := by
  induction t with
  | nil => simp [tableInsert, tableGet]
  | cons kv rest ih =>
      obtain ⟨k', v'⟩ := kv
      by_cases h : k' = k
      · simp [tableInsert, h, tableGet]
      · simp [tableInsert, h, tableGet, ih]

theorem tableGet_insert_ne (t : TomlTable) (k k' : String) (v : TomlValue)
    (h : k' ≠ k) : tableGet (tableInsert t k v) k' = tableGet t k' := by
  induction t with
  | nil => simp [tableInsert, tableGet, Ne.symm h]
  | cons kv rest ih =>
      obtain ⟨k₀, v₀⟩ := kv
      by_cases h0 : k₀ = k
      · subst h0
        simp [tableInsert, tableGet, Ne.symm h]
      · simp only [tableInsert, if_neg h0, tableGet]
        by_cases h1 : k₀ = k'
        · simp [h1]
        · simp [h1, ih]

theorem tableGet_eq_none_of_not_mem (t : TomlTable) (k : String)
    (h : k ∉ t.map Prod.fst) : tableGet t k = none := by
  induction t with
  | nil => rfl
  | cons kv rest ih =>
      obtain ⟨k', v'⟩ := kv
      simp only [List.map_cons, List.mem_cons] at h
      push_neg at h
      simp [tableGet, Ne.symm h.1, ih h.2]

theorem tableGet_extend (iT fT : TomlTable) (k : String)
    (h : (fT.map Prod.fst).Nodup) :
    tableGet (tableExtend iT fT) k =
      (match tableGet fT k with
        | some v => some v
        | none => tableGet iT k) := by
  induction fT generalizing iT with
  | nil => rfl
  | cons kv rest ih =>
      obtain ⟨k₁, v₁⟩ := kv
      simp only [List.map_cons, List.nodup_cons] at h
      have hstep : tableExtend iT ((k₁, v₁) :: rest)
          = tableExtend (tableInsert iT k₁ v₁) rest := rfl
      rw [hstep, ih _ h.2]
      by_cases hk : k₁ = k
      · subst hk
        have : tableGet rest k₁ = none :=
          tableGet_eq_none_of_not_mem rest k₁ h.1
        simp [tableGet, this, tableGet_insert_self]
      · simp [tableGet, hk, tableGet_insert_ne _ _ _ _ (fun e => hk e.symm)]

theorem mergeManifest_ok_not_in_frag (frag : TomlTable) :
    ∀ (intoT m : TomlTable) (k : String), mergeManifest intoT frag = .ok m →
      tableGet frag k = none → tableGet m k = tableGet intoT k := by
  induction frag with
  | nil =>
      intro intoT m k hm _
      cases hm
      rfl
  | cons kv rest ih =>
      intro intoT m k hm hget
      obtain ⟨k₁, v₁⟩ := kv
      have hk : k₁ ≠ k := by
        intro e
        rw [tableGet, if_pos e] at hget
        exact Option.noConfusion hget
      rw [tableGet, if_neg hk] at hget
      cases v₁ with
      | table fromT =>
          rw [mergeManifest] at hm
          cases hinto : tableGet intoT k₁ with
          | none =>
              rw [hinto] at hm
              rw [ih _ m k hm hget]
              exact tableGet_insert_ne _ _ _ _ (Ne.symm hk)
          | some v =>
              cases v with
              | table t =>
                  rw [hinto] at hm
                  rw [ih _ m k hm hget]
                  exact tableGet_insert_ne _ _ _ _ (Ne.symm hk)
              | str s => rw [hinto] at hm; exact Except.noConfusion hm
              | int n => rw [hinto] at hm; exact Except.noConfusion hm
              | boolVal b => rw [hinto] at hm; exact Except.noConfusion hm
              | array xs => rw [hinto] at hm; exact Except.noConfusion hm
      | str s =>
          simp only [mergeManifest] at hm
          rw [ih _ m k hm hget]
          exact tableGet_insert_ne _ _ _ _ (Ne.symm hk)
      | int n =>
          simp only [mergeManifest] at hm
          rw [ih _ m k hm hget]
          exact tableGet_insert_ne _ _ _ _ (Ne.symm hk)
      | boolVal b =>
          simp only [mergeManifest] at hm
          rw [ih _ m k hm hget]
          exact tableGet_insert_ne _ _ _ _ (Ne.symm hk)
      | array xs =>
          simp only [mergeManifest] at hm
          rw [ih _ m k hm hget]
          exact tableGet_insert_ne _ _ _ _ (Ne.symm hk)

theorem mergeManifest_ok_nontable (frag : TomlTable) :
    ∀ (intoT m : TomlTable) (k : String) (v : TomlValue),
      (frag.map Prod.fst).Nodup →
      mergeManifest intoT frag = .ok m →
      tableGet frag k = some v → isTable v = false →
      tableGet m k = some v := by
  induction frag with
  | nil =>
      intro _ _ _ _ _ _ hget _
      exact Option.noConfusion hget
  | cons kv rest ih =>
      intro intoT m k v hnd hm hget hv
      obtain ⟨k₁, v₁⟩ := kv
      simp only [List.map_cons, List.nodup_cons] at hnd
      by_cases hk : k₁ = k
      · subst hk
        rw [tableGet, if_pos rfl] at hget
        injection hget with hget
        subst hget
        have hnone : tableGet rest k₁ = none :=
          tableGet_eq_none_of_not_mem rest k₁ hnd.1
        cases v₁ with
        | table t => simp [isTable] at hv
        | str s =>
            simp only [mergeManifest] at hm
            rw [mergeManifest_ok_not_in_frag rest _ m k₁ hm hnone]
            exact tableGet_insert_self _ _ _
        | int n =>
            simp only [mergeManifest] at hm
            rw [mergeManifest_ok_not_in_frag rest _ m k₁ hm hnone]
            exact tableGet_insert_self _ _ _
        | boolVal b =>
            simp only [mergeManifest] at hm
            rw [mergeManifest_ok_not_in_frag rest _ m k₁ hm hnone]
            exact tableGet_insert_self _ _ _
        | array xs =>
            simp only [mergeManifest] at hm
            rw [mergeManifest_ok_not_in_frag rest _ m k₁ hm hnone]
            exact tableGet_insert_self _ _ _
      · rw [tableGet, if_neg hk] at hget
        cases v₁ with
        | table fromT =>
            rw [mergeManifest] at hm
            cases hin : tableGet intoT k₁ with
            | none =>
                rw [hin] at hm
                exact ih _ m k v hnd.2 hm hget hv
            | some w =>
                cases w with
                | table t =>
                    rw [hin] at hm
                    exact ih _ m k v hnd.2 hm hget hv
                | str s => rw [hin] at hm; exact Except.noConfusion hm
                | int n => rw [hin] at hm; exact Except.noConfusion hm
                | boolVal b => rw [hin] at hm; exact Except.noConfusion hm
                | array xs => rw [hin] at hm; exact Except.noConfusion hm
        | str s =>
            simp only [mergeManifest] at hm
            exact ih _ m k v hnd.2 hm hget hv
        | int n =>
            simp only [mergeManifest] at hm
            exact ih _ m k v hnd.2 hm hget hv
        | boolVal b =>
            simp only [mergeManifest] at hm
            exact ih _ m k v hnd.2 hm hget hv
        | array xs =>
            simp only [mergeManifest] at hm
            exact ih _ m k v hnd.2 hm hget hv

theorem mergeManifest_ok_table_table (frag : TomlTable) :
    ∀ (intoT m : TomlTable) (k : String) (fT iT : TomlTable),
      (frag.map Prod.fst).Nodup →
      mergeManifest intoT frag = .ok m →
      tableGet frag k = some (.table fT) →
      tableGet intoT k = some (.table iT) →
      tableGet m k = some (.table (tableExtend iT fT)) := by
  induction frag with
  | nil =>
      intro _ _ _ _ _ _ _ hget _
      exact Option.noConfusion hget
  | cons kv rest ih =>
      intro intoT m k fT iT hnd hm hget hinto
      obtain ⟨k₁, v₁⟩ := kv
      simp only [List.map_cons, List.nodup_cons] at hnd
      by_cases hk : k₁ = k
      · subst hk
        rw [tableGet, if_pos rfl] at hget
        injection hget with hget
        subst hget
        rw [mergeManifest, hinto] at hm
        have hnone : tableGet rest k₁ = none :=
          tableGet_eq_none_of_not_mem rest k₁ hnd.1
        rw [mergeManifest_ok_not_in_frag rest _ m k₁ hm hnone]
        exact tableGet_insert_self _ _ _
      · rw [tableGet, if_neg hk] at hget
        have hpres : ∀ w : TomlValue,
            tableGet (tableInsert intoT k₁ w) k = some (.table iT) := by
          intro w
          rw [tableGet_insert_ne _ _ _ _ (Ne.symm hk)]
          exact hinto
        cases v₁ with
        | table fromT =>
            rw [mergeManifest] at hm
            cases hin : tableGet intoT k₁ with
            | none =>
                rw [hin] at hm
                exact ih _ m k fT iT hnd.2 hm hget (hpres _)
            | some w =>
                cases w with
                | table t =>
                    rw [hin] at hm
                    exact ih _ m k fT iT hnd.2 hm hget (hpres _)
                | str s => rw [hin] at hm; exact Except.noConfusion hm
                | int n => rw [hin] at hm; exact Except.noConfusion hm
                | boolVal b => rw [hin] at hm; exact Except.noConfusion hm
                | array xs => rw [hin] at hm; exact Except.noConfusion hm
        | str s =>
            simp only [mergeManifest] at hm
            exact ih _ m k fT iT hnd.2 hm hget (hpres _)
        | int n =>
            simp only [mergeManifest] at hm
            exact ih _ m k fT iT hnd.2 hm hget (hpres _)
        | boolVal b =>
            simp only [mergeManifest] at hm
            exact ih _ m k fT iT hnd.2 hm hget (hpres _)
        | array xs =>
            simp only [mergeManifest] at hm
            exact ih _ m k fT iT hnd.2 hm hget (hpres _)

theorem mergeManifest_conflict (frag : TomlTable) :
    ∀ (intoT : TomlTable) (k : String) (fT : TomlTable) (v : TomlValue),
      tableGet frag k = some (.table fT) →
      tableGet intoT k = some v → isTable v = false →
      mergeManifest intoT frag = .error mergeConflictMsg := by
  induction frag with
  | nil =>
      intro _ _ _ _ hget _ _
      exact Option.noConfusion hget
  | cons kv rest ih =>
      intro intoT k fT v hget hinto hv
      obtain ⟨k₁, v₁⟩ := kv
      by_cases hk : k₁ = k
      · subst hk
        rw [tableGet, if_pos rfl] at hget
        injection hget with hget
        subst hget
        rw [mergeManifest, hinto]
        cases v with
        | table t => simp [isTable] at hv
        | str s => rfl
        | int n => rfl
        | boolVal b => rfl
        | array xs => rfl
      · rw [tableGet, if_neg hk] at hget
        have hpres : ∀ w : TomlValue,
            tableGet (tableInsert intoT k₁ w) k = some v := by
          intro w
          rw [tableGet_insert_ne _ _ _ _ (Ne.symm hk)]
          exact hinto
        cases v₁ with
        | table fromT =>
            rw [mergeManifest]
            cases hin : tableGet intoT k₁ with
            | none => exact ih _ k fT v hget (hpres _) hv
            | some w =>
                cases w with
                | table t => exact ih _ k fT v hget (hpres _) hv
                | str s => rfl
                | int n => rfl
                | boolVal b => rfl
                | array xs => rfl
        | str s => exact ih _ k fT v hget (hpres _) hv
        | int n => exact ih _ k fT v hget (hpres _) hv
        | boolVal b => exact ih _ k fT v hget (hpres _) hv
        | array xs => exact ih _ k fT v hget (hpres _) hv

/-- C3 (confirmed).  Merge semantics of `merge_manifest`: (1) when both
sides hold a nested table at a top-level key, the merged result holds the
default's table extended with the fragment's entries; (2) in that extension
a fragment entry wins on key collision — verbatim, with no recursion below
one level — and a non-colliding default entry survives; (3) a non-table
fragment value replaces the default's value outright; (4) top-level keys of
the default absent from the fragment are unchanged. -/
theorem claim_C3_merge_semantics :
    (∀ (intoT frag m : TomlTable) (k : String) (fT iT : TomlTable),
        (frag.map Prod.fst).Nodup →
        mergeManifest intoT frag = .ok m →
        tableGet frag k = some (.table fT) →
        tableGet intoT k = some (.table iT) →
        tableGet m k = some (.table (tableExtend iT fT))) ∧
    (∀ (iT fT : TomlTable) (k : String), (fT.map Prod.fst).Nodup →
        tableGet (tableExtend iT fT) k =
          (match tableGet fT k with
            | some v => some v
            | none => tableGet iT k)) ∧
    (∀ (intoT frag m : TomlTable) (k : String) (v : TomlValue),
        (frag.map Prod.fst).Nodup →
        mergeManifest intoT frag = .ok m →
        tableGet frag k = some v → isTable v = false →
        tableGet m k = some v) ∧
    (∀ (intoT frag m : TomlTable) (k : String),
        mergeManifest intoT frag = .ok m →
        tableGet frag k = none → tableGet m k = tableGet intoT k) := by
  refine ⟨?_, ?_, ?_, ?_⟩
  · intro intoT frag m k fT iT hnd hm hget hinto
    exact mergeManifest_ok_table_table frag intoT m k fT iT hnd hm hget hinto
  · intro iT fT k hnd
    exact tableGet_extend iT fT k hnd
  · intro intoT frag m k v hnd hm hget hv
    exact mergeManifest_ok_nontable frag intoT m k v hnd hm hget hv
  · intro intoT frag m k hm hget
    exact mergeManifest_ok_not_in_frag frag intoT m k hm hget

/-- C3 witness: merging a `[dependencies]`-only fragment into a default
table extends the dependencies table and leaves `package` untouched. -/
theorem claim_C3_merge_semantics_witness :
    tableGet [("package", TomlValue.table [("name", TomlValue.str "n")]),
        ("dependencies", TomlValue.table
          [("serde", TomlValue.str "1.0"), ("time", TomlValue.str "0.1.25")])]
        "dependencies" =
      some (TomlValue.table (tableExtend [("serde", TomlValue.str "1.0")]
        [("time", TomlValue.str "0.1.25")])) ∧
    tableGet [("package", TomlValue.table [("name", TomlValue.str "n")]),
        ("dependencies", TomlValue.table
          [("serde", TomlValue.str "1.0"), ("time", TomlValue.str "0.1.25")])]
        "package" =
      tableGet [("package", TomlValue.table [("name", TomlValue.str "n")]),
        ("dependencies", TomlValue.table [("serde", TomlValue.str "1.0")])]
        "package" := by
  constructor
  · exact claim_C3_merge_semantics.1
      [("package", TomlValue.table [("name", TomlValue.str "n")]),
        ("dependencies", TomlValue.table [("serde", TomlValue.str "1.0")])]
      [("dependencies", TomlValue.table [("time", TomlValue.str "0.1.25")])]
      _ "dependencies" [("time", TomlValue.str "0.1.25")]
      [("serde", TomlValue.str "1.0")] (by decide) rfl rfl rfl
  · exact claim_C3_merge_semantics.2.2.2
      [("package", TomlValue.table [("name", TomlValue.str "n")]),
        ("dependencies", TomlValue.table [("serde", TomlValue.str "1.0")])]
      [("dependencies", TomlValue.table [("time", TomlValue.str "0.1.25")])]
      _ "package" rfl rfl

/-- C7 counterexample: the claim asserts a `MergeConflict` error in *both*
directions, but when the fragment declares a non-table value where the
default holds a table, `merge_manifest` silently replaces the table and
succeeds. -/
theorem claim_C7_merge_conflict_counterexample :
    mergeManifest [("a", TomlValue.table [])] [("a", TomlValue.str "x")]
      = .ok [("a", TomlValue.str "x")] := rfl

/-- C7 (corrected).  `merge_manifest` reports the conflict error exactly when
the fragment declares a table at a key where the default holds a non-table
value; in the opposite direction — fragment non-table over default table —
the fragment's value silently replaces the default's table. -/
theorem claim_C7_merge_conflict_amended :
    (∀ (intoT frag : TomlTable) (k : String) (fT : TomlTable) (v : TomlValue),
        tableGet frag k = some (.table fT) →
        tableGet intoT k = some v → isTable v = false →
        mergeManifest intoT frag = .error mergeConflictMsg) ∧
    (∀ (intoT : TomlTable) (k : String) (v : TomlValue) (t : TomlTable),
        isTable v = false → tableGet intoT k = some (.table t) →
        mergeManifest intoT [(k, v)] = .ok (tableInsert intoT k v)) := by
  constructor
  · intro intoT frag k fT v hget hinto hv
    exact mergeManifest_conflict frag intoT k fT v hget hinto hv
  · intro intoT k v t hv _
    cases v with
    | table t' => simp [isTable] at hv
    | str s => rfl
    | int n => rfl
    | boolVal b => rfl
    | array xs => rfl

/-- C7 witness: a fragment table over a default string errors; a fragment
string over a default table replaces it. -/
theorem claim_C7_merge_conflict_amended_witness :
    mergeManifest [("a", TomlValue.str "x")]
        [("a", TomlValue.table [("b", TomlValue.str "y")])]
      = .error mergeConflictMsg ∧
    mergeManifest [("a", TomlValue.table [])] [("a", TomlValue.str "z")]
      = .ok (tableInsert [("a", TomlValue.table [])] "a" (TomlValue.str "z")) :=
  ⟨claim_C7_merge_conflict_amended.1 _ _ "a" [("b", TomlValue.str "y")]
      (TomlValue.str "x") rfl rfl rfl,
    claim_C7_merge_conflict_amended.2 _ "a" (TomlValue.str "z") [] rfl rfl⟩

/-! ## `write_if_changed` (src/util/mod.rs:7-16) and `overwrite_file`
(src/main.rs:1064-1093)

The file system is an association of paths to (content, mtime); each routine
additionally returns the trace of primitive operations it performed, so that
the write *mechanism* (in-place whole-file write vs. temp-file-and-rename)
is part of the model. -/

/-- A primitive file-system operation performed by a write routine. -/
inductive FsOp where
  | readFile (p : String)
  | writeWhole (p : String)
  | createTempIn (dir : String)
  | writeTemp
  | renameInto (p : String)
deriving DecidableEq

/-- File-system state: paths mapped to (content, mtime). -/
abbrev FsState := List (String × String × Nat)

/-- Path lookup (first match). -/
def fsLookup : FsState → String → Option (String × Nat)
  | [], _ => none
  | (p', e) :: rest, p => if p' = p then some e else fsLookup rest p

/-- `std::fs::read_to_string`: the content at a path, if the file exists. -/
def fsRead (fs : FsState) (p : String) : Option String :=
  (fsLookup fs p).map Prod.fst

/-- The modification time at a path. -/
def fsStat (fs : FsState) (p : String) : Option Nat :=
  (fsLookup fs p).map Prod.snd

/-- Writing a path sets its content and stamps the current time. -/
def fsWrite : FsState → String → String → Nat → FsState
  | [], p, c, t => [(p, (c, t))]
  | (p', e) :: rest, p, c, t =>
      if p' = p then (p, (c, t)) :: rest else (p', e) :: fsWrite rest p c t

/-- `Path::parent` on a slash-separated path string. -/
def parentDir (p : String) : String :=
  (((p.toList.reverse.dropWhile (fun c => c ≠ '/')).drop 1).reverse).asString

/-- `util::write_if_changed`: read the current content; if it differs from
`new` (or the file is unreadable), write the whole file in place with
`std::fs::write`; otherwise do nothing. -/
def writeIfChanged (fs : FsState) (p new : String) (now : Nat) :
    FsState × List FsOp :=
  let writeNeeded :=
    match fsRead fs p with
    | some current => current != new
    | none => true
  if writeNeeded then (fsWrite fs p new now, [.readFile p, .writeWhole p])
  else (fs, [.readFile p])

/-- `hash_str` (src/main.rs:1058-1062). -/
def hashStr (s : String) : String := sha1Hex [s]

/-- The result of `overwrite_file`. -/
inductive FileOverwrite where
  | same
  | changed (newHash : String)

/-- `overwrite_file`: compare the hash of the new content against the cached
hash; when they differ, write a temporary file in the target's directory and
atomically rename it into place. -/
def overwriteFile (fs : FsState) (p content : String) (hash : Option String)
    (now : Nat) : FsState × List FsOp × FileOverwrite :=
  let newHash := hashStr content
  if some newHash = hash then (fs, [], .same)
  else (fsWrite fs p content now,
    [.createTempIn (parentDir p), .writeTemp, .renameInto p], .changed newHash)

theorem fsLookup_fsWrite_self (fs : FsState) (p c : String) (t : Nat) :
    fsLookup (fsWrite fs p c t) p = some (c, t) := by
  induction fs with
  | nil => simp [fsWrite, fsLookup]
  | cons pe rest ih =>
      obtain ⟨p', e⟩ := pe
      by_cases h : p' = p
      · simp [fsWrite, h, fsLookup]
      · simp [fsWrite, h, fsLookup, ih]

/-- C4 counterexample: a changing `write_if_changed` call performs a direct
in-place whole-file write — its operation trace has no temporary file and no
rename — contradicting the claim that the replacement happens atomically via
a temporary file renamed into place (that mechanism belongs to
`overwrite_file` in main.rs). -/
theorem claim_C4_write_if_changed_counterexample :
    (writeIfChanged [("d/f", ("old", 5))] "d/f" "new" 10).2
        = [FsOp.readFile "d/f", FsOp.writeWhole "d/f"] ∧
    FsOp.renameInto "d/f" ∉ (writeIfChanged [("d/f", ("old", 5))] "d/f" "new" 10).2 ∧
    FsOp.createTempIn "d" ∉ (writeIfChanged [("d/f", ("old", 5))] "d/f" "new" 10).2 ∧
    fsRead (writeIfChanged [("d/f", ("old", 5))] "d/f" "new" 10).1 "d/f" = some "new" := by
  refine ⟨rfl, by decide, by decide, rfl⟩

/-- C4 (corrected).  Round trip and idempotence hold for `write_if_changed`:
reading back after a call yields exactly the written content; an immediately
repeated call with the same content performs no write and leaves the state
(hence the mtime) unchanged; a call with different content replaces the
content and stamps a fresh mtime — but by a direct in-place `std::fs::write`,
not a temp-file rename.  The atomic temp-file-and-rename mechanism is
`overwrite_file`'s (main.rs), whose changing path emits exactly
create-temp/write-temp/rename. -/
theorem claim_C4_write_if_changed_amended :
    (∀ (fs : FsState) (p c : String) (now : Nat),
        fsRead (writeIfChanged fs p c now).1 p = some c) ∧
    (∀ (fs : FsState) (p c : String) (now now' : Nat),
        writeIfChanged (writeIfChanged fs p c now).1 p c now'
          = ((writeIfChanged fs p c now).1, [.readFile p])) ∧
    (∀ (fs : FsState) (p c₀ c : String) (now : Nat),
        fsRead fs p = some c₀ → c₀ ≠ c →
        writeIfChanged fs p c now
          = (fsWrite fs p c now, [.readFile p, .writeWhole p]) ∧
        fsStat (fsWrite fs p c now) p = some now) ∧
    (∀ (fs : FsState) (p c : String) (hash : Option String) (now : Nat),
        some (hashStr c) ≠ hash →
        overwriteFile fs p c hash now
          = (fsWrite fs p c now,
              [.createTempIn (parentDir p), .writeTemp, .renameInto p],
              .changed (hashStr c))) := by
  have hrt : ∀ (fs : FsState) (p c : String) (now : Nat),
      fsRead (writeIfChanged fs p c now).1 p = some c := by
    intro fs p c now
    unfold writeIfChanged
    cases hr : fsRead fs p with
    | none =>
        simp only [hr, if_true]
        simp [fsRead, fsLookup_fsWrite_self]
    | some current =>
        by_cases he : current = c
        · subst he
          simp only [hr, bne_self_eq_false, Bool.false_eq_true, if_false]
        · have : (current != c) = true := by simp [bne_iff_ne, he]
          simp only [hr, this, if_true]
          simp [fsRead, fsLookup_fsWrite_self]
  refine ⟨hrt, ?_, ?_, ?_⟩
  · intro fs p c now now'
    have h1 := hrt fs p c now
    generalize (writeIfChanged fs p c now).1 = fs1 at h1 ⊢
    unfold writeIfChanged
    rw [h1]
    simp
  · intro fs p c₀ c now hr hne
    have : (c₀ != c) = true := by simp [bne_iff_ne, hne]
    constructor
    · unfold writeIfChanged
      rw [hr]
      simp only [this, if_true]
    · simp [fsStat, fsLookup_fsWrite_self]
  · intro fs p c hash now hne
    unfold overwriteFile
    simp only [if_neg hne]

/-- C4 witness: the amended theorem at concrete inputs. -/
theorem claim_C4_write_if_changed_amended_witness :
    fsRead (writeIfChanged [] "d/f" "x" 3).1 "d/f" = some "x" ∧
    writeIfChanged (writeIfChanged [] "d/f" "x" 3).1 "d/f" "x" 7
      = ((writeIfChanged [] "d/f" "x" 3).1, [.readFile "d/f"]) ∧
    writeIfChanged [("d/f", ("x", 3))] "d/f" "y" 9
      = (fsWrite [("d/f", ("x", 3))] "d/f" "y" 9,
          [.readFile "d/f", .writeWhole "d/f"]) ∧
    overwriteFile [] "d/f" "y" (some (hashStr "x")) 9
      = (fsWrite [] "d/f" "y" 9,
          [.createTempIn (parentDir "d/f"), .writeTemp, .renameInto "d/f"],
          .changed (hashStr "y")) := by
  have h := claim_C4_write_if_changed_amended
  refine ⟨h.1 [] "d/f" "x" 3, h.2.1 [] "d/f" "x" 3 7,
    (h.2.2.1 [("d/f", ("x", 3))] "d/f" "x" "y" 9 rfl (by decide)).1,
    h.2.2.2 [] "d/f" "y" (some (hashStr "x")) 9 ?_⟩
  intro he
  injection he with he
  have : ¬ hashStr "y" = hashStr "x" := by decide
  exact this he

/-! ## `decide_action_for` (src/main.rs:687-805), the toolchain invocation
step of `try_main` (src/main.rs:416-427), and `gen_pkg_and_compile`
(src/main.rs:508-575) -/

/-- `ALLOW_AUTO_REMOVE` (src/main.rs:6). -/
def allowAutoRemove : Bool := true

/-- `BuildKind` (src/main.rs:63-87). -/
inductive BuildKind where
  | normal
  | test
  | bench
deriving DecidableEq

/-- `BuildKind::exec_command`. -/
def BuildKind.execCommand : BuildKind → String
  | .normal => "run"
  | .test => "test"
  | .bench => "bench"

/-- The fields of `Args` that `decide_action_for` and the run step consume. -/
structure Args where
  features : Option String
  pkgPath : Option String
  genPkgOnly : Bool
  cargoOutput : Bool
  debug : Bool
  force : Bool
  buildKind : BuildKind
  toolchainVersion : Option String

/-- `PackageMetadata` (src/main.rs:654-682). -/
structure PackageMetadata where
  path : Option String
  modified : Option Nat
  template : Option String
  debug : Bool
  deps : List (String × String)
  preludeItems : List String
  features : Option String
  manifestHash : String
  scriptHash : String

/-- `InputAction` (src/main.rs:580-629). -/
structure InputAction where
  cargoOutput : Bool
  forceCompile : Bool
  emitMetadata : Bool
  execute : Bool
  pkgPath : String
  usingCache : Bool
  toolchainVersion : Option String
  metadata : PackageMetadata
  oldMetadata : Option PackageMetadata
  manifest : String
  script : String
  buildKind : BuildKind

/-- `decide_action_for`.  `maniScript` stands for the pair returned by
`manifest::split_input` (whose string contents do not influence the claims
settled here); `cacheRoot` for `platform::generated_projects_cache_path()`;
`oldMetaLoad` for the outcome of `get_pkg_metadata` on the package dir
(`none` when the load fails).  The `deps` placeholder is the empty map, as
in the source.  Note the function performs no modification-time reads or
comparisons of any kind. -/
def decideActionFor (input : Input) (prelude : List String) (args : Args)
    (maniScript : String × String) (cacheRoot : String)
    (oldMetaLoad : Option PackageMetadata) : InputAction :=
  let deps : List (String × String) := []
  let inputId := computeId input deps
  let pkgPathCache :=
    match args.pkgPath with
    | some p => (p, false)
    | none => (cacheRoot ++ "/" ++ inputId, true)
  let debugForce :=
    match args.buildKind with
    | .normal => (args.debug, args.force)
    | .test => (true, false)
    | .bench => (false, false)
  let inputMeta : PackageMetadata :=
    { path := match input with
        | .file _ p _ _ => some p
        | _ => none
      modified := match input with
        | .file _ _ _ m => some m
        | _ => none
      template := match input with
        | .expr _ t => t
        | _ => none
      debug := debugForce.1
      deps := deps
      preludeItems := prelude
      features := args.features
      manifestHash := hashStr maniScript.1
      scriptHash := hashStr maniScript.2 }
  let toolchainVersion :=
    match args.toolchainVersion with
    | some v => some v
    | none =>
        match args.buildKind with
        | .bench => some "nightly"
        | _ => none
  let action : InputAction :=
    { cargoOutput := args.cargoOutput
      forceCompile := debugForce.2
      emitMetadata := true
      execute := true
      pkgPath := pkgPathCache.1
      usingCache := pkgPathCache.2
      toolchainVersion := toolchainVersion
      metadata := inputMeta
      oldMetadata := none
      manifest := maniScript.1
      script := maniScript.2
      buildKind := args.buildKind }
  if args.genPkgOnly then { action with execute := false }
  else
    match args.buildKind with
    | .test => { action with forceCompile := false }
    | .bench => { action with forceCompile := false }
    | .normal => { action with oldMetadata := oldMetaLoad }

/-- The execution step of `try_main` (src/main.rs:416-427): when
`action.execute` holds, the external toolchain is invoked as
`cargo <exec_command>`; otherwise no subprocess runs. -/
def invokedToolchainCmd (action : InputAction) : Option String :=
  if action.execute then some action.buildKind.execCommand else none

/-- The package directory contents `gen_pkg_and_compile` touches. -/
structure PkgFs where
  dirExists : Bool
  manifestFile : Option String
  scriptFile : Option String
  metaFile : Option PackageMetadata

/-- The steps of `gen_pkg_and_compile` that can fail while the cleanup
guard is armed. -/
inductive GenStep where
  | writeManifest
  | writeScript
  | writeMeta
deriving DecidableEq

/-- The `cleanup_dir` deferred guard (src/main.rs:518-529): on failure,
delete the package directory — but only when it lies inside our own cache
(`action.using_cache`), never a user-supplied directory. -/
def pkgCleanup (action : InputAction) (fs : PkgFs) : PkgFs :=
  if action.usingCache && allowAutoRemove then
    { dirExists := false, manifestFile := none, scriptFile := none,
      metaFile := none }
  else fs

/-- `gen_pkg_and_compile`: create the package dir, arm the cleanup guard,
write manifest and script through `overwrite_file` (hash-compared against
the previous metadata; the script hash is ignored under `force_compile`),
emit the metadata, then disarm the guard.  `failAt` injects an I/O failure
at the named step, before its write lands; the guard then runs.  Returns
the resulting directory state and whether the generation succeeded. -/
def genPkgAndCompile (action : InputAction) (fs : PkgFs)
    (failAt : Option GenStep) : PkgFs × Bool :=
  let fs := { fs with dirExists := true }
  if failAt = some .writeManifest then (pkgCleanup action fs, false)
  else
    let maniHash := action.oldMetadata.map (fun m => m.manifestHash)
    let fs := if some (hashStr action.manifest) = maniHash then fs
              else { fs with manifestFile := some action.manifest }
    if failAt = some .writeScript then (pkgCleanup action fs, false)
    else
      let scriptHash := if action.forceCompile then none
                        else action.oldMetadata.map (fun m => m.scriptHash)
      let fs := if some (hashStr action.script) = scriptHash then fs
                else { fs with scriptFile := some action.script }
      if failAt = some .writeMeta then (pkgCleanup action fs, false)
      else
        let fs := if action.emitMetadata then
                    { fs with metaFile := some action.metadata }
                  else fs
        (fs, true)

/-- C2 counterexample: with a binary stamped 100 — at least as new as both
the synthesized source (50) and manifest (50) — a normal build-and-run
invocation still invokes the external toolchain (`cargo run`): the
orchestrator has no Fresh state and reads no timestamps (`decide_action_for`
takes none and `try_main` compares none). -/
theorem claim_C2_freshness_counterexample :
    ((50 ≤ 100 ∧ 50 ≤ 100) ∧
      invokedToolchainCmd (decideActionFor
        (.file "script" "/tmp/script.rs" "fn f()" 50) []
        { features := none, pkgPath := none, genPkgOnly := false,
          cargoOutput := false, debug := true, force := false,
          buildKind := .normal, toolchainVersion := none }
        ("mani", "src") "/cache" none) = some "run") :=
  ⟨⟨by omega, by omega⟩, rfl⟩

/-- C2 (corrected).  For every normal build-and-run invocation (BuildKind
Normal, not gen-pkg-only), `decide_action_for` marks the action for
execution and `try_main` invokes the external toolchain (`cargo run`)
unconditionally — no binary/source/manifest modification-time comparison
exists in the orchestrator; staleness detection is delegated to cargo
itself, aided by the hash-compared (`overwrite_file`) package writes. -/
theorem claim_C2_always_invokes_toolchain_amended
    (input : Input) (prelude : List String) (args : Args)
    (ms : String × String) (root : String) (old : Option PackageMetadata)
    (hbk : args.buildKind = .normal) (hgen : args.genPkgOnly = false) :
    (decideActionFor input prelude args ms root old).execute = true ∧
    invokedToolchainCmd (decideActionFor input prelude args ms root old)
      = some "run" := by
  refine ⟨?_, ?_⟩ <;>
    simp [decideActionFor, invokedToolchainCmd, hbk, hgen,
      BuildKind.execCommand]

/-- C2 witness: the amended theorem at a concrete invocation. -/
theorem claim_C2_always_invokes_toolchain_amended_witness :
    (decideActionFor (.expr "1 + 1" none) []
        { features := none, pkgPath := none, genPkgOnly := false,
          cargoOutput := false, debug := true, force := false,
          buildKind := .normal, toolchainVersion := none }
        ("m", "s") "/cache" none).execute = true ∧
    invokedToolchainCmd (decideActionFor (.expr "1 + 1" none) []
        { features := none, pkgPath := none, genPkgOnly := false,
          cargoOutput := false, debug := true, force := false,
          buildKind := .normal, toolchainVersion := none }
        ("m", "s") "/cache" none) = some "run" :=
  claim_C2_always_invokes_toolchain_amended _ _ _ _ _ _ rfl rfl

/-- C9 counterexample: a *pre-existing* cache directory (it already holds a
manifest from an earlier run) is deleted by the cleanup guard when package
generation fails partway — the guard only checks `using_cache`, not whether
this invocation created the directory — contradicting the claim that an
existing cache directory is never deleted on failure. -/
theorem claim_C9_failure_cleanup_counterexample :
    (genPkgAndCompile
        { cargoOutput := false, forceCompile := false, emitMetadata := true,
          execute := true, pkgPath := "/cache/abc", usingCache := true,
          toolchainVersion := none,
          metadata := { path := none, modified := none, template := none,
                        debug := true, deps := [], preludeItems := [],
                        features := none, manifestHash := "h1",
                        scriptHash := "h2" },
          oldMetadata := none, manifest := "mani", script := "src",
          buildKind := .normal }
        { dirExists := true, manifestFile := some "previous manifest",
          scriptFile := some "previous source", metaFile := none }
        (some .writeScript)).1.dirExists = false ∧
    (genPkgAndCompile
        { cargoOutput := false, forceCompile := false, emitMetadata := true,
          execute := true, pkgPath := "/cache/abc", usingCache := true,
          toolchainVersion := none,
          metadata := { path := none, modified := none, template := none,
                        debug := true, deps := [], preludeItems := [],
                        features := none, manifestHash := "h1",
                        scriptHash := "h2" },
          oldMetadata := none, manifest := "mani", script := "src",
          buildKind := .normal }
        { dirExists := true, manifestFile := some "previous manifest",
          scriptFile := some "previous source", metaFile := none }
        (some .writeScript)).2 = false := by
  constructor <;> rfl

/-- C9 (corrected).  On a failure partway through package generation the
cleanup guard removes the package directory exactly when it is owned by the
cache (`using_cache`) — including a cache directory that already existed
before this invocation; a user-supplied explicit output directory is never
deleted; a successful run deletes nothing.  `decide_action_for` sets
`using_cache` false precisely when the user supplied `--pkg-path`, which is
then used verbatim. -/
theorem claim_C9_failure_cleanup_amended :
    (∀ (action : InputAction) (fs : PkgFs) (step : GenStep),
        (genPkgAndCompile action fs (some step)).2 = false) ∧
    (∀ (action : InputAction) (fs : PkgFs) (step : GenStep),
        action.usingCache = true →
        (genPkgAndCompile action fs (some step)).1.dirExists = false) ∧
    (∀ (action : InputAction) (fs : PkgFs) (step : GenStep),
        action.usingCache = false →
        (genPkgAndCompile action fs (some step)).1.dirExists = true) ∧
    (∀ (action : InputAction) (fs : PkgFs),
        (genPkgAndCompile action fs none).2 = true ∧
        (genPkgAndCompile action fs none).1.dirExists = true) ∧
    (∀ (input : Input) (prelude : List String) (args : Args)
        (ms : String × String) (root : String) (old : Option PackageMetadata),
        (decideActionFor input prelude args ms root old).usingCache
          = args.pkgPath.isNone ∧
        (∀ p, args.pkgPath = some p →
            (decideActionFor input prelude args ms root old).pkgPath = p)) := by
  refine ⟨?_, ?_, ?_, ?_, ?_⟩
  · intro action fs step
    cases step <;>
      (simp [genPkgAndCompile]
       try split_ifs <;> rfl)
  · intro action fs step h
    cases step <;> simp [genPkgAndCompile, pkgCleanup, allowAutoRemove, h]
  · intro action fs step h
    cases step <;>
      (simp [genPkgAndCompile, pkgCleanup, allowAutoRemove, h]
       try split_ifs <;> rfl)
  · intro action fs
    constructor <;>
      (simp [genPkgAndCompile]
       try split_ifs <;> rfl)
  · intro input prelude args ms root old
    cases hp : args.pkgPath with
    | none =>
        cases hgen : args.genPkgOnly <;> cases hbk : args.buildKind <;>
          simp [decideActionFor, hp, hgen, hbk]
    | some p =>
        cases hgen : args.genPkgOnly <;> cases hbk : args.buildKind <;>
          simp [decideActionFor, hp, hgen, hbk]

/-- C9 witness: the amended theorem at concrete inputs — a cache-owned
directory is removed on failure, an explicit directory survives. -/
theorem claim_C9_failure_cleanup_amended_witness :
    (genPkgAndCompile
        { cargoOutput := false, forceCompile := false, emitMetadata := true,
          execute := true, pkgPath := "/cache/abc", usingCache := true,
          toolchainVersion := none,
          metadata := { path := none, modified := none, template := none,
                        debug := true, deps := [], preludeItems := [],
                        features := none, manifestHash := "h1",
                        scriptHash := "h2" },
          oldMetadata := none, manifest := "m", script := "s",
          buildKind := .normal }
        { dirExists := false, manifestFile := none, scriptFile := none,
          metaFile := none }
        (some .writeManifest)).1.dirExists = false ∧
    (genPkgAndCompile
        { cargoOutput := false, forceCompile := false, emitMetadata := true,
          execute := true, pkgPath := "/home/user/out", usingCache := false,
          toolchainVersion := none,
          metadata := { path := none, modified := none, template := none,
                        debug := true, deps := [], preludeItems := [],
                        features := none, manifestHash := "h1",
                        scriptHash := "h2" },
          oldMetadata := none, manifest := "m", script := "s",
          buildKind := .normal }
        { dirExists := true, manifestFile := some "user file",
          scriptFile := none, metaFile := none }
        (some .writeManifest)).1.dirExists = true := by
  constructor
  · exact claim_C9_failure_cleanup_amended.2.1 _ _ .writeManifest rfl
  · exact claim_C9_failure_cleanup_amended.2.2.1 _ _ .writeManifest rfl

/-! ## Embedded-manifest extraction (src/manifest.rs:230-543)

`strip_shebang`, `RE_CRATE_COMMENT`, `extract_comment` and
`scrape_markdown_manifest`, hand-translated onto `List Char`.  The regex
patterns follow the `regex` crate's leftmost-first semantics; `\s` is
modelled on the ASCII whitespace it matches on the data exercised here.
The Markdown stage models `pulldown_cmark`'s fenced-code-block rules
(opening fence of three-plus backticks or tildes after at most three spaces
of indent, trimmed info string, matching closing fence, content lines as
text events) at the top level of the document, which is the fragment
scraper's whole diet. -/

/-- The backtick character (0x60). -/
def backtickChar : Char := Char.ofNat 96

/-- Rust regex `\s` on the ASCII range. -/
def isWs (c : Char) : Bool :=
  c = ' ' || c = '\t' || c = '\n' || c = '\r' ||
    c = Char.ofNat 11 || c = Char.ofNat 12

/-- Index just past the first `'\n'`, if any. -/
def pastFirstNl : List Char → Option Nat
  | [] => none
  | '\n' :: _ => some 1
  | _ :: rest => (pastFirstNl rest).map (fun i => i + 1)

/-- `strip_shebang` via `RE_SHEBANG` (`^#![^\[].*?(\r\n|\n)`): a leading
`#!` not followed by `[` swallows the line up to and including its first
newline; without a newline (or with `#![`), nothing is stripped. -/
def stripShebang (s : List Char) : List Char × Bool :=
  match s with
  | '#' :: '!' :: c :: rest =>
      if c = '[' then (s, false)
      else
        match pastFirstNl rest with
        | some i => (rest.drop i, true)
        | none => (s, false)
  | _ => (s, false)

/-- Does the text begin with a doc-comment marker — `/*!`, `//!` or `///`
(group 3 of `RE_CRATE_COMMENT`)? -/
def startsDocMarker (cs : List Char) : Bool :=
  match cs with
  | '/' :: '*' :: '!' :: _ => true
  | '/' :: '/' :: '!' :: _ => true
  | '/' :: '/' :: '/' :: _ => true
  | _ => false

/-- `RE_CRATE_COMMENT` = `(^\s*|^\#![^\[].*?(\r\n|\n))(/\*!|//(!|/))` on the
shebang-stripped source, leftmost-first: either leading whitespace (blank
lines included) immediately followed by a doc-comment marker, or a
shebang-shaped first line with the marker right after its newline.  Returns
the marker's start index. -/
def crateCommentStart (r : List Char) : Option Nat :=
  let w := (r.takeWhile isWs).length
  if startsDocMarker (r.drop w) then some w
  else
    match r with
    | '#' :: '!' :: c :: rest =>
        if c = '[' then none
        else
          match pastFirstNl rest with
          | some i =>
              if startsDocMarker (rest.drop i) then some (3 + i) else none
          | none => none
    | _ => none

/-- `str::lines`: split at `'\n'`, a `'\r'` directly before the split is
dropped, and a trailing terminator yields no final empty line. -/
def rustLinesGo : List Char → List Char → List (List Char)
  | [], acc => if acc.isEmpty then [] else [acc.reverse]
  | c :: rest, acc =>
      if c = '\n' then
        (if acc.head? = some '\r' then acc.tail.reverse else acc.reverse)
          :: rustLinesGo rest []
      else rustLinesGo rest (c :: acc)

/-- `str::lines` on a character list. -/
def rustLines (cs : List Char) : List (List Char) := rustLinesGo cs []

/-- The `RE_NESTING` scan of one line in `extract_block`: walk the `/*` and
`*/` markers left to right, adjusting the depth; `*/` at depth 1 truncates
the line there and closes the comment (depth 0). -/
def scanNesting : Nat → List Char → List Char × Nat
  | depth, '/' :: '*' :: rest =>
      let r := scanNesting (depth + 1) rest
      ('/' :: '*' :: r.1, r.2)
  | depth, '*' :: '/' :: rest =>
      if depth = 1 then ([], 0)
      else
        let r := scanNesting (depth - 1) rest
        ('*' :: '/' :: r.1, r.2)
  | depth, c :: rest =>
      let r := scanNesting depth rest
      (c :: r.1, r.2)
  | depth, [] => ([], depth)

/-- `RE_MARGIN` `^\s*\*( |$)`: the character length of a block-comment
margin at the start of a line, if present. -/
def marginLen (cs : List Char) : Option Nat :=
  let w := (cs.takeWhile isWs).length
  match cs.drop w with
  | '*' :: ' ' :: _ => some (w + 2)
  | ['*'] => some (w + 1)
  | _ => none

/-- `RE_SPACE` `^(\s+)`: the length of a nonempty leading whitespace run. -/
def leadingWsLen (cs : List Char) : Option Nat :=
  match (cs.takeWhile isWs).length with
  | 0 => none
  | n + 1 => some (n + 1)

/-- `n_leading_spaces`: the first `n` characters must all be `' '`. -/
def nLeadingSpaces (cs : List Char) (n : Nat) : Bool :=
  (cs.take n).all (fun c => c = ' ')

/-- The line loop of `extract_block`: stop once the comment has closed;
otherwise scan nesting, latch the margin on the first line exhibiting one
and strip that many characters, latch the leading-whitespace width on the
first line exhibiting one, require plain spaces there (a tab is an error),
strip, and append the line plus a newline. -/
def extractBlockGo :
    List (List Char) → Nat → Option Nat → Option Nat → List Char →
      Except String (List Char)
  | [], _, _, _, acc => .ok acc
  | line :: rest, depth, margin, leading, acc =>
      if depth = 0 then .ok acc
      else
        let scanned := scanNesting depth line
        let line := scanned.1
        let margin := match margin with
          | some m => some m
          | none => marginLen line
        let line := match margin with
          | some m => line.drop m
          | none => line
        let leading := match leading with
          | some n => some n
          | none => leadingWsLen line
        if nLeadingSpaces line (leading.getD 0) then
          extractBlockGo rest scanned.2 margin leading
            (acc ++ line.drop (min (leading.getD 0) line.length) ++ ['\n'])
        else .error "leading chars are not all spaces"

/-- `extract_block` (the `/*!` form), fed the text after the opener. -/
def extractBlock (s : List Char) : Except String (List Char) :=
  extractBlockGo (rustLines s) 1 none none []

/-- `RE_COMMENT` `^\s*//(!|/)`: the match end of a line-doc-comment marker
(whitespace, then `//!` or `///`), if the line has one. -/
def lineCommentEnd (cs : List Char) : Option Nat :=
  let w := (cs.takeWhile isWs).length
  match cs.drop w with
  | '/' :: '/' :: '!' :: _ => some (w + 3)
  | '/' :: '/' :: '/' :: _ => some (w + 3)
  | _ => none

/-- The line loop of `extract_line`: strip the marker from every contiguous
comment line from the top (the first non-comment line stops the loop),
latch the leading-whitespace width, require plain spaces, strip, append. -/
def extractLineGo :
    List (List Char) → Option Nat → List Char → Except String (List Char)
  | [], _, acc => .ok acc
  | line :: rest, leading, acc =>
      match lineCommentEnd line with
      | none => .ok acc
      | some e =>
          let content := line.drop e
          let leading := match leading with
            | some n => some n
            | none => leadingWsLen content
          if nLeadingSpaces content (leading.getD 0) then
            extractLineGo rest leading
              (acc ++ content.drop (min (leading.getD 0) content.length) ++ ['\n'])
          else .error "leading chars are not all spaces"

/-- `extract_line` (the `//!` / `///` form), fed the text including the
first marker. -/
def extractLine (s : List Char) : Except String (List Char) :=
  extractLineGo (rustLines s) none []

/-- `extract_comment`: block form for `/*!`, line form for `//!` and `///`,
otherwise no doc comment. -/
def extractComment (s : List Char) : Except String (List Char) :=
  match s with
  | '/' :: '*' :: '!' :: rest => extractBlock rest
  | '/' :: '/' :: '!' :: _ => extractLine s
  | '/' :: '/' :: '/' :: _ => extractLine s
  | _ => .error "no doc comment found"

/-- ASCII lowercasing of a character list (`str::to_lowercase` on the ASCII
info strings exercised here). -/
def lowerStr (cs : List Char) : List Char := cs.map toAsciiLower

/-- Trim whitespace from both ends. -/
def trimWs (cs : List Char) : List Char :=
  ((cs.dropWhile isWs).reverse.dropWhile isWs).reverse

/-- A CommonMark fence opener, as `pulldown_cmark` recognizes it: at most
three spaces of indent, a run of at least three backticks or tildes, then
the info string (trimmed; a backtick fence rejects an info string that
contains a backtick).  Returns (fence char, run length, indent, info). -/
def fenceOpen (line : List Char) : Option (Char × Nat × Nat × List Char) :=
  let ind := (line.takeWhile (fun c => c = ' ')).length
  if 3 < ind then none
  else
    let rest := line.drop ind
    match rest.head? with
    | some c =>
        if c = backtickChar || c = '~' then
          let run := (rest.takeWhile (fun x => x = c)).length
          if run < 3 then none
          else
            let info := trimWs (rest.drop run)
            if c = backtickChar && info.any (fun x => x = backtickChar) then
              none
            else some (c, run, ind, info)
        else none
    | none => none

/-- A CommonMark closing fence for an open (char, length) fence: at most
three spaces of indent, a run of at least `len` fence characters, then only
whitespace. -/
def fenceClose (c : Char) (len : Nat) (line : List Char) : Bool :=
  let ind := (line.takeWhile (fun x => x = ' ')).length
  if 3 < ind then false
  else
    let rest := line.drop ind
    let run := (rest.takeWhile (fun x => x = c)).length
    decide (len ≤ run) && 0 < run && (rest.drop run).all isWs

/-- Strip up to `ind` leading spaces from a fenced block's content line. -/
def stripIndent : Nat → List Char → List Char
  | 0, l => l
  | n + 1, ' ' :: rest => stripIndent n rest
  | _ + 1, l => l

/-- State of the fenced-block scan: outside any block, inside the captured
`cargo` block, or inside some other fenced block. -/
inductive ScanState where
  | top
  | inCargo (c : Char) (len ind : Nat)
  | inOther (c : Char) (len : Nat)

/-- The event loop of `scrape_markdown_manifest`: a fenced-block Start whose
lowercased info string equals `cargo`, while no output has been captured
yet, switches capture on (`found`); Text events — the block's content lines
— append to the output while capturing; the block's End switches capture
off; all other events are ignored. -/
def scrapeGo :
    ScanState → List (List Char) → Option (List Char) → Option (List Char)
  | _, [], out => out
  | .top, line :: rest, out =>
      match fenceOpen line with
      | some (c, len, ind, info) =>
          if lowerStr info = "cargo".toList ∧ out = none then
            scrapeGo (.inCargo c len ind) rest out
          else scrapeGo (.inOther c len) rest out
      | none => scrapeGo .top rest out
  | .inCargo c len ind, line :: rest, out =>
      if fenceClose c len line then scrapeGo .top rest out
      else
        scrapeGo (.inCargo c len ind) rest
          (some (out.getD [] ++ stripIndent ind line ++ ['\n']))
  | .inOther c len, line :: rest, out =>
      if fenceClose c len line then scrapeGo .top rest out
      else scrapeGo (.inOther c len) rest out

/-- `scrape_markdown_manifest`: the first `cargo`-labelled fenced code block
of the comment, as concatenated text. -/
def scrapeMarkdownManifest (content : List Char) : Option (List Char) :=
  scrapeGo .top (rustLines content) none

/-- The comment-location stage of `find_code_block_manifest`: strip the
shebang, require the doc comment to start at the very beginning (after
whitespace only), slice from the marker and extract the comment body.  A
slicing error is logged and treated as "no manifest". -/
def docCommentOf (s : List Char) : Option (List Char) :=
  let rest := (stripShebang s).1
  match crateCommentStart rest with
  | none => none
  | some start =>
      match extractComment (rest.drop start) with
      | .error _ => none
      | .ok comment => some comment

/-- `find_code_block_manifest` (src/manifest.rs:484-510), returning the
manifest fragment when one is found (the accompanying source slice is the
input, unchanged, in the Rust function). -/
def findCodeBlockManifest (s : String) : Option String :=
  match docCommentOf s.toList with
  | none => none
  | some comment => (scrapeMarkdownManifest comment).map List.asString

/-- `//! ` followed by the line's content: one rendered line-doc-comment
line. -/
def renderDocLine (l : List Char) : List Char := '/' :: '/' :: '!' :: ' ' :: l

/-- A rendered line-doc comment: each line as `//! <line>\n`. -/
def renderDoc (ls : List (List Char)) : List Char :=
  (ls.map (fun l => renderDocLine l ++ ['\n'])).flatten

/-- The second alternative of `RE_CRATE_COMMENT` as a predicate on the
shebang-stripped source: a `#!`-and-not-`#![` first line whose newline is
immediately followed by a doc-comment marker. -/
def shebangThenMarker (r : List Char) : Bool :=
  match r with
  | '#' :: '!' :: c :: rest =>
      if c = '[' then false
      else
        match pastFirstNl rest with
        | some i => startsDocMarker (rest.drop i)
        | none => false
  | _ => false

theorem takeWhile_append_all {p : Char → Bool} (l₁ l₂ : List Char)
    (h : ∀ c ∈ l₁, p c = true) :
    (l₁ ++ l₂).takeWhile p = l₁ ++ l₂.takeWhile p := by
  induction l₁ with
  | nil => rfl
  | cons c rest ih =>
      have hc := h c (by simp)
      have ih' := ih (fun x hx => h x (by simp [hx]))
      simp [List.takeWhile_cons, hc, ih']

theorem dropWhile_append_all {p : Char → Bool} (l₁ l₂ : List Char)
    (h : ∀ c ∈ l₁, p c = true) :
    (l₁ ++ l₂).dropWhile p = l₂.dropWhile p := by
  induction l₁ with
  | nil => rfl
  | cons c rest ih =>
      simp only [List.cons_append, List.dropWhile_cons, h c (by simp)]
      exact ih (fun c hc => h c (by simp [hc]))

theorem drop_takeWhile_length (l : List Char) (p : Char → Bool) :
    l.drop (l.takeWhile p).length = l.dropWhile p := by
  induction l with
  | nil => rfl
  | cons c rest ih =>
      by_cases h : p c = true
      · simp [List.takeWhile_cons, List.dropWhile_cons, h, ih]
      · simp only [Bool.not_eq_true] at h
        simp [List.takeWhile_cons, List.dropWhile_cons, h]

theorem stripShebang_not_hash (s : List Char)
    (h : ∀ c, s.head? = some c → c ≠ '#') : stripShebang s = (s, false) := by
  unfold stripShebang
  split
  · rename_i c rest
    exact absurd rfl (h '#' rfl)
  · rfl

theorem rustLinesGo_cons_ne (c : Char) (rest acc : List Char)
    (hc : c ≠ '\n') :
    rustLinesGo (c :: rest) acc = rustLinesGo rest (c :: acc) := by
  simp [rustLinesGo, hc]

theorem rustLinesGo_split (a : List Char) :
    ∀ (acc b : List Char), (∀ c ∈ a, c ≠ '\n') →
      rustLinesGo (a ++ '\n' :: b) acc =
        (if (a.reverse ++ acc).head? = some '\r'
          then (a.reverse ++ acc).tail.reverse
          else (a.reverse ++ acc).reverse) :: rustLinesGo b [] := by
  induction a with
  | nil =>
      intro acc b _
      simp [rustLinesGo]
  | cons c rest ih =>
      intro acc b h
      have hc : c ≠ '\n' := h c (by simp)
      rw [List.cons_append, rustLinesGo_cons_ne c _ acc hc,
        ih (c :: acc) b (fun x hx => h x (by simp [hx]))]
      simp

theorem rustLines_split (a b : List Char)
    (ha : ∀ c ∈ a, c ≠ '\n' ∧ c ≠ '\r') :
    rustLines (a ++ '\n' :: b) = a :: rustLines b := by
  unfold rustLines
  rw [rustLinesGo_split a [] b (fun c hc => (ha c hc).1)]
  congr 1
  rw [List.append_nil]
  cases hr : a.reverse with
  | nil =>
      have : a = [] := by simpa using congrArg List.reverse hr
      simp [this]
  | cons x t =>
      have hx : x ∈ a := by
        have : x ∈ a.reverse := by
          rw [hr]
          simp
        simpa using this
      have hxr : x ≠ '\r' := (ha x hx).2
      rw [if_neg (by simp [hxr])]
      simpa using (congrArg List.reverse hr).symm

theorem rustLines_flatten (ls : List (List Char))
    (h : ∀ l ∈ ls, ∀ c ∈ l, c ≠ '\n' ∧ c ≠ '\r') :
    rustLines ((ls.map (fun l => l ++ ['\n'])).flatten) = ls := by
  induction ls with
  | nil => simp [rustLines, rustLinesGo]
  | cons l rest ih =>
      have hshape : ((l :: rest).map (fun l => l ++ ['\n'])).flatten
          = l ++ '\n' :: (rest.map (fun l => l ++ ['\n'])).flatten := by
        simp
  
      rw [hshape, rustLines_split l _ (h l (by simp)),
        ih (fun l' hl' => h l' (by simp [hl']))]

theorem rustLines_renderDoc (ls : List (List Char)) (rest : List Char)
    (h : ∀ l ∈ ls, ∀ c ∈ l, c ≠ '\n' ∧ c ≠ '\r') :
    rustLines (renderDoc ls ++ rest)
      = ls.map renderDocLine ++ rustLines rest := by
  induction ls with
  | nil => simp [renderDoc]
  | cons l tl ih =>
      have hshape : renderDoc (l :: tl) ++ rest
          = renderDocLine l ++ '\n' :: (renderDoc tl ++ rest) := by
        simp [renderDoc]
      rw [hshape, rustLines_split _ _ ?_, ih (fun l' hl' => h l' (by simp [hl']))]
      · simp
      · intro c hc
        unfold renderDocLine at hc
        simp only [List.mem_cons] at hc
        rcases hc with h1 | h1 | h1 | h1 | h1
        · subst h1
          exact ⟨by decide, by decide⟩
        · subst h1
          exact ⟨by decide, by decide⟩
        · subst h1
          exact ⟨by decide, by decide⟩
        · subst h1
          exact ⟨by decide, by decide⟩
        · exact h l (by simp) c h1

theorem leadingWsLen_space (l : List Char)
    (hl : ∀ c, l.head? = some c → isWs c = false) :
    leadingWsLen (' ' :: l) = some 1 := by
  cases l with
  | nil => rfl
  | cons c t =>
      have hc := hl c rfl
      simp [leadingWsLen, List.takeWhile_cons, hc,
        show isWs ' ' = true from rfl]

theorem extractLineGo_render_step (l : List Char) (tail : List (List Char))
    (leading : Option Nat) (acc : List Char)
    (hl : ∀ c, l.head? = some c → isWs c = false)
    (hleading : leading = none ∨ leading = some 1) :
    extractLineGo (renderDocLine l :: tail) leading acc
      = extractLineGo tail (some 1) (acc ++ l ++ ['\n']) := by
  have hend : lineCommentEnd (renderDocLine l) = some 3 := rfl
  have hcontent : (renderDocLine l).drop 3 = ' ' :: l := rfl
  have hmin : min 1 ((' ' :: l).length) = 1 :=
    Nat.min_eq_left (by simp)
  have hlat : (match leading with
      | some n => some n
      | none => leadingWsLen (' ' :: l)) = some 1 := by
    rcases hleading with h | h
    · rw [h]
      exact leadingWsLen_space l hl
    · rw [h]
  simp only [extractLineGo, hend, hcontent, hlat, Option.getD_some, hmin]
  rw [if_pos (show nLeadingSpaces (' ' :: l) 1 = true from rfl)]
  rfl

theorem extractLineGo_render_all (ls : List (List Char)) :
    ∀ (tail : List (List Char)) (acc : List Char) (leading : Option Nat),
      (∀ l ∈ ls, ∀ c, l.head? = some c → isWs c = false) →
      (leading = none ∨ leading = some 1) →
      (∀ l, tail.head? = some l → lineCommentEnd l = none) →
      extractLineGo (ls.map renderDocLine ++ tail) leading acc
        = .ok (acc ++ (ls.map (fun l => l ++ ['\n'])).flatten) := by
  induction ls with
  | nil =>
      intro tail acc leading _ _ htail
      cases tail with
      | nil => simp [extractLineGo]
      | cons l rest =>
          have := htail l rfl
          simp [extractLineGo, this]
  | cons l tl ih =>
      intro tail acc leading hheads hleading htail
      rw [List.map_cons, List.cons_append,
        extractLineGo_render_step l _ leading acc (hheads l (by simp)) hleading,
        ih tail _ (some 1) (fun x hx => hheads x (by simp [hx]))
          (Or.inr rfl) htail]
      simp

theorem scrapeGo_pre (pre : List (List Char)) :
    ∀ (X : List (List Char)) (out : Option (List Char)),
      (∀ l ∈ pre, fenceOpen l = none) →
      scrapeGo .top (pre ++ X) out = scrapeGo .top X out := by
  induction pre with
  | nil =>
      intro X out _
      rfl
  | cons l tl ih =>
      intro X out h
      have hl := h l (by simp)
      simp only [List.cons_append, scrapeGo, hl]
      exact ih X out (fun x hx => h x (by simp [hx]))

theorem scrapeGo_capture_step (l : List Char) (Y : List (List Char))
    (out : Option (List Char)) (hc : fenceClose backtickChar 3 l = false) :
    scrapeGo (.inCargo backtickChar 3 0) (l :: Y) out
      = scrapeGo (.inCargo backtickChar 3 0) Y
          (some (out.getD [] ++ l ++ ['\n'])) := by
  simp only [scrapeGo, hc, Bool.false_eq_true, if_false]
  rfl

theorem scrapeGo_capture (body : List (List Char)) :
    ∀ (X : List (List Char)) (acc : List Char),
      (∀ l ∈ body, fenceClose backtickChar 3 l = false) →
      scrapeGo (.inCargo backtickChar 3 0) (body ++ X) (some acc)
        = scrapeGo (.inCargo backtickChar 3 0) X
            (some (acc ++ (body.map (fun l => l ++ ['\n'])).flatten)) := by
  induction body with
  | nil =>
      intro X acc _
      simp
  | cons l tl ih =>
      intro X acc h
      rw [List.cons_append, scrapeGo_capture_step l _ _ (h l (by simp)),
        Option.getD_some, ih X _ (fun x hx => h x (by simp [hx]))]
      simp

theorem scrapeGo_sealed (ls : List (List Char)) :
    ∀ (t : List Char),
      scrapeGo .top ls (some t) = some t ∧
      (∀ c n, scrapeGo (.inOther c n) ls (some t) = some t) := by
  induction ls with
  | nil =>
      intro t
      exact ⟨rfl, fun c n => rfl⟩
  | cons l rest ih =>
      intro t
      constructor
      · cases hfo : fenceOpen l with
        | none =>
            simp only [scrapeGo, hfo]
            exact (ih t).1
        | some q =>
            obtain ⟨c, n, ind, info⟩ := q
            simp only [scrapeGo, hfo]
            rw [if_neg (by simp)]
            exact (ih t).2 c n
      · intro c n
        by_cases hc : fenceClose c n l = true
        · simp only [scrapeGo, hc, if_true]
          exact (ih t).1
        · simp only [Bool.not_eq_true] at hc
          simp only [scrapeGo, hc, Bool.false_eq_true, if_false]
          exact (ih t).2 c n

theorem scrapeGo_no_cargo (ls : List (List Char)) :
    ∀ (hnc : ∀ l ∈ ls, ∀ (c : Char) (n ind : Nat) (info : List Char),
        fenceOpen l = some (c, n, ind, info) →
        lowerStr info ≠ "cargo".toList),
      scrapeGo .top ls none = none ∧
      (∀ c n, scrapeGo (.inOther c n) ls none = none) := by
  induction ls with
  | nil =>
      intro _
      exact ⟨rfl, fun c n => rfl⟩
  | cons l rest ih =>
      intro hnc
      have ih' := ih (fun x hx => hnc x (by simp [hx]))
      constructor
      · cases hfo : fenceOpen l with
        | none =>
            simp only [scrapeGo, hfo]
            exact ih'.1
        | some q =>
            obtain ⟨c, n, ind, info⟩ := q
            have hcar := hnc l (by simp) c n ind info hfo
            simp only [scrapeGo, hfo]
            rw [if_neg (fun hand => hcar hand.1)]
            exact ih'.2 c n
      · intro c n
        by_cases hc : fenceClose c n l = true
        · simp only [scrapeGo, hc, if_true]
          exact ih'.1
        · simp only [Bool.not_eq_true] at hc
          simp only [scrapeGo, hc, Bool.false_eq_true, if_false]
          exact ih'.2 c n

theorem crateCommentStart_ws_marker (ws r : List Char)
    (hws : ∀ c ∈ ws, isWs c = true)
    (hm : startsDocMarker r = true)
    (hr : ∀ c, r.head? = some c → isWs c = false) :
    crateCommentStart (ws ++ r) = some ws.length := by
  unfold crateCommentStart
  have htw : (ws ++ r).takeWhile isWs = ws := by
    rw [takeWhile_append_all ws r hws]
    cases r with
    | nil => simp
    | cons c t =>
        have hc := hr c rfl
        simp [List.takeWhile_cons, hc]
  rw [htw]
  simp only [List.drop_left]
  rw [if_pos hm]

theorem docCommentOf_renderDoc (ws : List Char) (ls : List (List Char))
    (rest : List Char)
    (hws : ∀ c ∈ ws, isWs c = true)
    (hchars : ∀ l ∈ ls, ∀ c ∈ l, c ≠ '\n' ∧ c ≠ '\r')
    (hheads : ∀ l ∈ ls, ∀ c, l.head? = some c → isWs c = false)
    (hrest : ∀ l, (rustLines rest).head? = some l → lineCommentEnd l = none)
    (hne : ls ≠ []) :
    docCommentOf (ws ++ (renderDoc ls ++ rest))
      = some ((ls.map (fun l => l ++ ['\n'])).flatten) := by
  obtain ⟨l₁, tl, rfl⟩ : ∃ l₁ tl, ls = l₁ :: tl := by
    cases ls with
    | nil => exact absurd rfl hne
    | cons a b => exact ⟨a, b, rfl⟩
  have hshape : renderDoc (l₁ :: tl) ++ rest
      = '/' :: '/' :: '!' :: ' ' :: (l₁ ++ '\n' :: (renderDoc tl ++ rest)) := by
    simp [renderDoc, renderDocLine]
  have hnohash : ∀ c, (ws ++ (renderDoc (l₁ :: tl) ++ rest)).head? = some c →
      c ≠ '#' := by
    intro c hc hcontra
    subst hcontra
    cases ws with
    | nil =>
        rw [List.nil_append, hshape] at hc
        simp at hc
    | cons w ws' =>
        have hw := hws w (by simp)
        have hwh : w = '#' := by simpa using hc
        rw [hwh] at hw
        exact absurd hw (by decide)
  have hstrip := stripShebang_not_hash _ hnohash
  have hcc : crateCommentStart (ws ++ (renderDoc (l₁ :: tl) ++ rest))
      = some ws.length := by
    refine crateCommentStart_ws_marker ws _ hws ?_ ?_
    · rw [hshape]
      rfl
    · intro c hc
      rw [hshape] at hc
      injection hc with hc
      subst hc
      decide
  have hel : extractLine (renderDoc (l₁ :: tl) ++ rest)
      = .ok (((l₁ :: tl).map (fun l => l ++ ['\n'])).flatten) := by
    unfold extractLine
    rw [rustLines_renderDoc _ _ hchars]
    rw [extractLineGo_render_all _ _ [] none hheads (Or.inl rfl) hrest]
    simp
  unfold docCommentOf
  rw [hstrip]
  simp only
  rw [hcc]
  simp only
  rw [List.drop_left]
  have hec : extractComment (renderDoc (l₁ :: tl) ++ rest)
      = extractLine (renderDoc (l₁ :: tl) ++ rest) := by
    rw [hshape]
    rfl
  rw [hec, hel]


theorem scrape_structured (pre body post : List (List Char))
    (hpre : ∀ l ∈ pre, fenceOpen l = none)
    (hbody : ∀ l ∈ body, fenceClose backtickChar 3 l = false)
    (hbne : body ≠ []) :
    scrapeGo .top (pre ++ "```cargo".toList :: (body ++ "```".toList :: post))
        none
      = some ((body.map (fun l => l ++ ['\n'])).flatten) := by
  rw [scrapeGo_pre pre _ none hpre]
  obtain ⟨b₁, btl, rfl⟩ : ∃ b₁ btl, body = b₁ :: btl := by
    cases body with
    | nil => exact absurd rfl hbne
    | cons a b => exact ⟨a, b, rfl⟩
  have hopen : scrapeGo .top
      ("```cargo".toList :: ((b₁ :: btl) ++ "```".toList :: post)) none
      = scrapeGo (.inCargo backtickChar 3 0)
          ((b₁ :: btl) ++ "```".toList :: post) none := rfl
  rw [hopen, List.cons_append,
    scrapeGo_capture_step b₁ _ none (hbody b₁ (by simp)),
    scrapeGo_capture btl _ _ (fun x hx => hbody x (by simp [hx]))]
  have hclose : ∀ acc : List Char,
      scrapeGo (.inCargo backtickChar 3 0) ("```".toList :: post) (some acc)
        = scrapeGo .top post (some acc) := fun acc => rfl
  rw [hclose, (scrapeGo_sealed post _).1]
  simp

theorem crateCommentStart_none (r : List Char)
    (h1 : startsDocMarker (r.dropWhile isWs) = false)
    (h2 : shebangThenMarker r = false) :
    crateCommentStart r = none := by
  have hd : startsDocMarker (r.drop (r.takeWhile isWs).length) = false := by
    rw [drop_takeWhile_length]
    exact h1
  unfold crateCommentStart
  simp only [hd, Bool.false_eq_true, if_false]
  unfold shebangThenMarker at h2
  split
  · rename_i c rest
    by_cases hc : c = '['
    · simp [hc]
    · simp only [hc, if_false] at h2 ⊢
      cases hnl : pastFirstNl rest with
      | none => simp [hnl]
      | some i =>
          simp only [hnl] at h2
          simp only [hnl]
          rw [if_neg (by simp [h2])]
  · rfl

/-- Is the line's first character a non-whitespace character (or the line
empty)?  Bounded form of the head condition used below. -/
def headNotWs (l : List Char) : Bool :=
  match l.head? with
  | some c => !isWs c
  | none => true

/-- Does the text following the doc comment *not* begin with another
line-doc-comment line (which would extend the comment)? -/
def firstLineNoDocMarker (rest : List Char) : Bool :=
  match (rustLines rest).head? with
  | some l => (lineCommentEnd l).isNone
  | none => true

/-- C1 counterexample: a source whose leading doc comment is preceded by a
blank line still yields the fragment — `RE_CRATE_COMMENT` begins with
`^\s*`, so leading whitespace (blank lines included) is allowed before the
doc comment, contradicting the claim that such a source yields no fragment
(the repository's own `test_split_input` checks exactly this shape). -/
theorem claim_C1_manifest_extraction_counterexample :
    findCodeBlockManifest
        "\n/*!\n```cargo\n[dependencies]\ntime = \"0.1.25\"\n```\n*/\nfn main() {}\n"
      = some "[dependencies]\ntime = \"0.1.25\"\n" := by
  rfl

/-- C1 (corrected).  (1) A source consisting of optional leading whitespace,
a line-doc comment rendered as `//! `-prefixed lines containing a fenced
code block labelled `cargo`, and non-comment trailing text, yields exactly
that block's body as the fragment (the concrete counterexample witnesses
the block-comment form, shebang included in `stripShebang`); (2) when,
after stripping an optional shebang, the first non-whitespace content is
not a doc-comment opener (and no shebang-shaped line directly precedes
one), no fragment is returned; (3) when the leading doc comment contains no
`cargo`-labelled fence, no fragment is returned. -/
theorem claim_C1_manifest_extraction_amended :
    (∀ (ws : List Char) (pre body post : List (List Char)) (rest : List Char),
        (∀ c ∈ ws, isWs c = true) →
        (∀ l ∈ pre ++ "```cargo".toList :: (body ++ "```".toList :: post),
            ∀ c ∈ l, c ≠ '\n' ∧ c ≠ '\r') →
        (∀ l ∈ pre ++ "```cargo".toList :: (body ++ "```".toList :: post),
            headNotWs l = true) →
        firstLineNoDocMarker rest = true →
        (∀ l ∈ pre, fenceOpen l = none) →
        (∀ l ∈ body, fenceClose backtickChar 3 l = false) →
        body ≠ [] →
        findCodeBlockManifest
            ((ws ++ (renderDoc (pre ++ "```cargo".toList ::
                (body ++ "```".toList :: post)) ++ rest)).asString)
          = some (((body.map (fun l => l ++ ['\n'])).flatten).asString)) ∧
    (∀ s : String,
        startsDocMarker ((stripShebang s.toList).1.dropWhile isWs) = false →
        shebangThenMarker (stripShebang s.toList).1 = false →
        findCodeBlockManifest s = none) ∧
    (∀ (s : String) (comment : List Char),
        docCommentOf s.toList = some comment →
        (∀ l ∈ rustLines comment, ∀ (c : Char) (n ind : Nat)
            (info : List Char), fenceOpen l = some (c, n, ind, info) →
            lowerStr info ≠ "cargo".toList) →
        findCodeBlockManifest s = none) := by
  refine ⟨?_, ?_, ?_⟩
  · intro ws pre body post rest hws hchars hheads hrest hpre hbody hbne
    have hheads' : ∀ l ∈ pre ++ "```cargo".toList ::
        (body ++ "```".toList :: post), ∀ c, l.head? = some c →
          isWs c = false := by
      intro l hl c hc
      have hh := hheads l hl
      unfold headNotWs at hh
      rw [hc] at hh
      simpa using hh
    have hrest' : ∀ l, (rustLines rest).head? = some l →
        lineCommentEnd l = none := by
      intro l hl
      unfold firstLineNoDocMarker at hrest
      rw [hl] at hrest
      simpa [Option.isNone_iff_eq_none] using hrest
    have hne : pre ++ "```cargo".toList :: (body ++ "```".toList :: post)
        ≠ [] := by
      cases pre <;> simp
    have htl : (((ws ++ (renderDoc (pre ++ "```cargo".toList ::
        (body ++ "```".toList :: post)) ++ rest)).asString)).toList
        = ws ++ (renderDoc (pre ++ "```cargo".toList ::
            (body ++ "```".toList :: post)) ++ rest) := rfl
    unfold findCodeBlockManifest
    rw [htl, docCommentOf_renderDoc ws _ rest hws hchars hheads' hrest' hne]
    show (scrapeMarkdownManifest _).map List.asString = _
    unfold scrapeMarkdownManifest
    rw [rustLines_flatten _ hchars, scrape_structured pre body post hpre hbody hbne]
    rfl
  · intro s h1 h2
    have hdoc : docCommentOf s.toList = none := by
      unfold docCommentOf
      simp only [crateCommentStart_none _ h1 h2]
    unfold findCodeBlockManifest
    rw [hdoc]
  · intro s comment hdoc hnc
    have hsc : scrapeMarkdownManifest comment = none := by
      unfold scrapeMarkdownManifest
      exact (scrapeGo_no_cargo (rustLines comment) hnc).1
    unfold findCodeBlockManifest
    rw [hdoc]
    show (scrapeMarkdownManifest comment).map List.asString = none
    rw [hsc]
    rfl

/-- C1 witness: the amended theorem at concrete inputs — a blank line, a
`//!` doc comment holding a cargo-fenced dependencies block, and trailing
code yield the block body; a plain source and a cargo-less doc comment
yield none. -/
theorem claim_C1_manifest_extraction_amended_witness :
    findCodeBlockManifest
        ((['\n'] ++ (renderDoc ([] ++ "```cargo".toList ::
            (["[dependencies]".toList] ++ "```".toList :: [])) ++
          "fn main() {}\n".toList)).asString)
      = some ((([["[dependencies]".toList]].flatten.map
            (fun l => l ++ ['\n'])).flatten).asString) ∧
    findCodeBlockManifest "fn main() {}" = none ∧
    findCodeBlockManifest "//! just docs\nfn main() {}\n" = none := by
  refine ⟨?_, ?_, ?_⟩
  · exact claim_C1_manifest_extraction_amended.1 ['\n'] []
      ["[dependencies]".toList] [] ("fn main() {}\n".toList)
      (by decide) (by decide) (by decide) (by decide) (by decide)
      (by decide) (by decide)
  · exact claim_C1_manifest_extraction_amended.2.1 "fn main() {}"
      (by decide) (by decide)
  · refine claim_C1_manifest_extraction_amended.2.2
      "//! just docs\nfn main() {}\n" ("just docs\n".toList) rfl ?_
    intro l hl c n ind info hfo
    have hleq : l = "just docs".toList := by
      rw [show rustLines ("just docs\n".toList)
            = ["just docs".toList] from rfl] at hl
      simpa using hl
    subst hleq
    exact Option.noConfusion hfo
